import Mathlib

/-!
# Verification of the QMK debounce strategies

Shallow embedding of three keyboard-matrix debounce strategies and their
shared elapsed-time accounting:

* the asymmetric fixed-delay strategy (`asym_defer`-style, one counter per
  key plus a per-row activity count),
* the sparse active-list strategy (an intrusive singly-linked list of
  mid-debounce cells threaded through a flat counter array),
* the quiescing three-state strategy (`fancy.c`: WAITING / DEBOUNCING /
  QUIESCING per key).

Matrix rows are embedded as natural-number bitmasks (one bit per column),
per-key state arrays as functions from indices to records, and the timer
as an explicit clock-state record threaded through each call.  All
machine-integer arithmetic that can overflow in the source is modelled
with explicit `% 2 ^ 16` / `% 256` reductions.
-/

namespace DebounceModel

/-! ## Bit-level helper lemmas -/

theorem and_two_pow_ne_zero_iff (x c : Nat) :
    (x &&& 2 ^ c ≠ 0) ↔ x.testBit c = true := by
  constructor
  · intro h
    by_contra hb
    apply h
    apply Nat.eq_of_testBit_eq
    intro i
    rw [Nat.testBit_land, Nat.testBit_two_pow, Nat.zero_testBit]
    rcases eq_or_ne c i with rfl | hne
    · simp only [Bool.not_eq_true] at hb
      simp [hb]
    · simp [hne]
  · intro h h0
    have : (x &&& 2 ^ c).testBit c = true := by
      rw [Nat.testBit_land, Nat.testBit_two_pow]
      simp [h]
    rw [h0] at this
    simp [Nat.zero_testBit] at this

theorem and_two_pow_eq_zero_iff (x c : Nat) :
    (x &&& 2 ^ c = 0) ↔ x.testBit c = false := by
  constructor
  · intro h0
    by_contra hb
    simp only [Bool.not_eq_false] at hb
    exact (and_two_pow_ne_zero_iff x c).mpr hb h0
  · intro hb
    by_contra h0
    have := (and_two_pow_ne_zero_iff x c).mp h0
    rw [this] at hb
    cases hb

theorem testBit_xor_and_two_pow (x y : Nat) (c j : Nat) :
    (x ^^^ (y &&& 2 ^ c)).testBit j =
      if j = c then xor (x.testBit j) (y.testBit j) else x.testBit j := by
  rw [Nat.testBit_xor, Nat.testBit_land, Nat.testBit_two_pow]
  rcases eq_or_ne j c with rfl | hne
  · simp
  · simp [Ne.symm hne, hne]

/-- `~m & x` for an arbitrary-width bitmask `m`: clear the bits of `m`
in `x`.  (`Nat.ldiff` is extensionally the same function but is defined
by well-founded recursion, which the kernel cannot evaluate; this form
uses only kernel-accelerated operations.) -/
def andNot (x m : Nat) : Nat := x ^^^ (x &&& m)

theorem testBit_andNot (x m j : Nat) :
    (andNot x m).testBit j = (x.testBit j && !(m.testBit j)) := by
  unfold andNot
  rw [Nat.testBit_xor, Nat.testBit_land]
  cases x.testBit j <;> cases m.testBit j <;> rfl

/-- Bits of `(~mask & x) | (mask & y)` where `mask = 2 ^ c`
(the masked copy used by the asymmetric strategy's commit). -/
theorem testBit_maskedCopy (x y c j : Nat) :
    ((andNot x (2 ^ c)) ||| (2 ^ c &&& y)).testBit j =
      if j = c then y.testBit j else x.testBit j := by
  rw [Nat.testBit_lor, testBit_andNot, Nat.testBit_land, Nat.testBit_two_pow]
  rcases eq_or_ne j c with rfl | hne
  · simp
  · simp [Ne.symm hne, hne]

/-! ## Elapsed-time accounting (`get_elapsed` of `fancy.c` / the sparse
strategy, using `timer_read_fast` and `TIMER_DIFF_FAST`). -/

/-- `TIMER_DIFF_FAST(now, last)`: wraparound-tolerant modular subtraction
of 16-bit timer readings (`fast_timer_t` on AVR). -/
def timerDiff16 (now last : Nat) : Nat :=
  (now % 2 ^ 16 + 2 ^ 16 - last % 2 ^ 16) % 2 ^ 16

/-- The clock state shared by the sparse and quiescing strategies:
`last_time_initialized` (field `inited`) and `last_time` (field `last`). -/
structure Clock where
  inited : Bool
  last : Nat
deriving DecidableEq

/-- `get_elapsed` from `fancy.c` / the sparse strategy: on the first call
after initialization, record the current reading and return 1; afterwards
return the modular difference from the previous reading, clamped to 255,
and record the current reading. -/
def get_elapsed (now : Nat) (c : Clock) : Nat × Clock :=
  if c.inited = false then
    (1, ⟨true, now⟩)
  else
    let elapsed_time := timerDiff16 now c.last
    ((if elapsed_time > 255 then 255 else elapsed_time), ⟨true, now⟩)

/-- The elapsed-time contract, written from the specification's words:
first call returns exactly 1 and records the reading as the new baseline;
later calls return the wraparound-tolerant whole-unit difference from the
previous call's reading, clamped so it never exceeds 255, and record the
reading. -/
def elapsedContract (now : Nat) (c : Clock) : Nat × Clock :=
  if c.inited then
    (min (timerDiff16 now c.last) 255, ⟨true, now⟩)
  else
    (1, ⟨true, now⟩)

theorem get_elapsed_le_255 (now : Nat) (c : Clock) :
    (get_elapsed now c).1 ≤ 255 := by
  rcases c with ⟨b, l⟩
  cases b
  · show (1 : Nat) ≤ 255
    omega
  · show (if timerDiff16 now l > 255 then (255 : Nat) else timerDiff16 now l) ≤ 255
    split <;> omega

theorem get_elapsed_eq_contract (now : Nat) (c : Clock) :
    get_elapsed now c = elapsedContract now c := by
  rcases c with ⟨b, l⟩
  cases b
  · rfl
  · show ((if timerDiff16 now l > 255 then (255 : Nat) else timerDiff16 now l),
        (⟨true, now⟩ : Clock)) = (min (timerDiff16 now l) 255, ⟨true, now⟩)
    rw [min_def]
    rcases Nat.lt_or_ge 255 (timerDiff16 now l) with h | h
    · rw [if_pos h, if_neg (by omega)]
    · rw [if_neg (by omega), if_pos h]

/-- **C4.** Elapsed-time accounting: `get_elapsed` satisfies the stated
contract — on the first call after initialization it returns exactly 1
and records the current reading as the new baseline without computing a
delta; on every later call it returns the wraparound-tolerant modular
difference in whole units from the previous call's reading, clamped so
it never exceeds 255, and records the current reading.  The function is
total (never fails) and its result is always at most 255. -/
theorem C4_get_elapsed_contract (now : Nat) (c : Clock) :
    get_elapsed now c = elapsedContract now c ∧ (get_elapsed now c).1 ≤ 255 :=
  ⟨get_elapsed_eq_contract now c, get_elapsed_le_255 now c⟩

/-! ## Quiescing three-state strategy (`src/quantum/debounce/fancy.c`)

Per key: a state in WAITING / DEBOUNCING / QUIESCING plus a `remaining`
counter.  The `debounce` routine loops over rows and columns, with
`delta = cooked_row ^ raw_row` computed once per row and `cooked_row`
updated bit by bit as cells commit.

Note on the WAITING case: the source line arming the counter reads
`(raw & col_mask) ? DEBOUNCE_DOWN : DEBOUNCE_UP` where `raw` is the row
array parameter itself (a pointer), an ill-typed operand for `&`; the
sibling strategies and the surrounding code make clear the intended
operand is `raw_row`, and the model uses `raw_row`.  (With this file's
own constants `DEBOUNCE_DOWN = DEBOUNCE_UP = 5` both branches arm the
same value, so the model is extensionally faithful at the shipped
configuration.) -/

namespace Fancy

inductive KState where
  | WAITING
  | DEBOUNCING
  | QUIESCING
deriving DecidableEq

structure KeySt where
  state : KState
  remaining : Nat
deriving DecidableEq

/-- Whole-engine state: the `key_states` array (addressed row, column)
and the shared clock. -/
structure St where
  keys : Nat → Nat → KeySt
  clock : Clock

/-- `debounce_init`: every cell's state is set to WAITING; the allocated
`remaining` bytes are left uninitialized, modelled by the arbitrary
function `g`; the clock baseline flag is cleared. -/
def debounce_init (g : Nat → Nat → Nat) : St :=
  ⟨fun r c => ⟨KState.WAITING, g r c⟩, ⟨false, 0⟩⟩

/-- The per-cell switch body of `debounce` (`fancy.c` lines 166-196):
given this cell's record and the current partially-updated `cooked_row`,
produce the new record and new `cooked_row`. -/
def keyStep (dn up q e : Nat) (rawRow delta : Nat) (col : Nat) :
    KeySt → Nat → KeySt × Nat
  | ⟨KState.WAITING, rem⟩, cookedRow =>
      if delta &&& 2 ^ col ≠ 0 then
        (⟨KState.DEBOUNCING, if rawRow &&& 2 ^ col ≠ 0 then dn else up⟩, cookedRow)
      else
        (⟨KState.WAITING, rem⟩, cookedRow)
  | ⟨KState.DEBOUNCING, rem⟩, cookedRow =>
      if delta &&& 2 ^ col = 0 then
        (⟨KState.WAITING, rem⟩, cookedRow)
      else if rem > e then
        (⟨KState.DEBOUNCING, rem - e⟩, cookedRow)
      else
        (⟨KState.QUIESCING, q⟩, cookedRow ^^^ 2 ^ col)
  | ⟨KState.QUIESCING, rem⟩, cookedRow =>
      if rem > e then
        (⟨KState.QUIESCING, rem - e⟩, cookedRow)
      else
        (⟨KState.WAITING, rem⟩, cookedRow)

/-- The cell commits (flips its cooked bit) on this call. -/
def commits (e : Nat) (delta : Nat) (col : Nat) (ks : KeySt) : Prop :=
  ks.state = KState.DEBOUNCING ∧ delta &&& 2 ^ col ≠ 0 ∧ ¬ ks.remaining > e

instance (e delta col : Nat) (ks : KeySt) : Decidable (commits e delta col ks) := by
  unfold commits
  infer_instance

/-- The inner column loop of `debounce`, processing columns
`j, j+1, ..., j+k-1` of one row. -/
def colLoop (dn up q e : Nat) (rawRow delta : Nat) :
    Nat → Nat → (Nat → KeySt) → Nat → ((Nat → KeySt) × Nat)
  | _, 0, keysRow, cookedRow => (keysRow, cookedRow)
  | j, k + 1, keysRow, cookedRow =>
      let s := keyStep dn up q e rawRow delta j (keysRow j) cookedRow
      colLoop dn up q e rawRow delta (j + 1) k (Function.update keysRow j s.1) s.2

/-- The outer row loop of `debounce`, processing rows `r, ..., r+k-1`. -/
def rowLoop (dn up q e cols : Nat) (raw : Nat → Nat) :
    Nat → Nat → (Nat → Nat → KeySt) → (Nat → Nat) →
      ((Nat → Nat → KeySt) × (Nat → Nat))
  | _, 0, keys, cooked => (keys, cooked)
  | r, k + 1, keys, cooked =>
      let rawRow := raw r
      let cookedRow := cooked r
      let delta := cookedRow ^^^ rawRow
      let s := colLoop dn up q e rawRow delta 0 cols (keys r) cookedRow
      rowLoop dn up q e cols raw (r + 1) k
        (Function.update keys r s.1) (Function.update cooked r s.2)

/-- `debounce` from `fancy.c`: read the elapsed time, then run the
row/column state machines.  The `changed` flag is accepted but unused by
this strategy.  Returns the new cooked matrix and engine state. -/
def debounce (dn up q cols : Nat) (raw : Nat → Nat) (cooked : Nat → Nat)
    (nrows : Nat) (_changed : Bool) (st : St) (now : Nat) :
    (Nat → Nat) × St :=
  let r := get_elapsed now st.clock
  let s := rowLoop dn up q r.1 cols raw 0 nrows st.keys cooked
  (s.2, ⟨s.1, r.2⟩)

theorem keyStep_fst_ignores_cooked (dn up q e rawRow delta col : Nat)
    (ks : KeySt) (cr cr' : Nat) :
    (keyStep dn up q e rawRow delta col ks cr).1 =
      (keyStep dn up q e rawRow delta col ks cr').1 := by
  rcases ks with ⟨s, rem⟩
  cases s <;> simp only [keyStep] <;> split <;> try rfl
  split <;> rfl

theorem keyStep_snd_testBit (dn up q e rawRow delta col : Nat)
    (ks : KeySt) (cr : Nat) (b : Nat) :
    ((keyStep dn up q e rawRow delta col ks cr).2).testBit b =
      if b = col ∧ commits e delta col ks then !(cr.testBit b)
      else cr.testBit b := by
  rcases ks with ⟨s, rem⟩
  cases s
  · have hc : ¬ (b = col ∧ commits e delta col ⟨KState.WAITING, rem⟩) := by
      simp [commits]
    rw [if_neg hc]
    simp only [keyStep]
    split <;> rfl
  · by_cases hd : delta &&& 2 ^ col = 0
    · have hc : ¬ (b = col ∧ commits e delta col ⟨KState.DEBOUNCING, rem⟩) := by
        simp [commits, hd]
      rw [if_neg hc]
      simp only [keyStep, if_pos hd]
    · by_cases hr : rem > e
      · have hc : ¬ (b = col ∧ commits e delta col ⟨KState.DEBOUNCING, rem⟩) := by
          simp [commits, hr]
        rw [if_neg hc]
        simp only [keyStep, if_neg hd, if_pos hr]
      · have hcm : commits e delta col ⟨KState.DEBOUNCING, rem⟩ := by
          unfold commits
          exact ⟨rfl, hd, hr⟩
        simp only [keyStep, if_neg hd, if_neg hr]
        rcases eq_or_ne b col with rfl | hne
        · rw [if_pos ⟨rfl, hcm⟩, Nat.testBit_xor, Nat.testBit_two_pow]
          simp
        · rw [if_neg (fun h => hne h.1), Nat.testBit_xor, Nat.testBit_two_pow]
          simp [Ne.symm hne]
  · have hc : ¬ (b = col ∧ commits e delta col ⟨KState.QUIESCING, rem⟩) := by
      simp [commits]
    rw [if_neg hc]
    simp only [keyStep]
    split <;> rfl

theorem colLoop_keys (dn up q e rawRow delta : Nat) :
    ∀ (k j : Nat) (keysRow : Nat → KeySt) (cookedRow : Nat) (c : Nat),
      ((colLoop dn up q e rawRow delta j k keysRow cookedRow).1) c =
        if j ≤ c ∧ c < j + k then
          (keyStep dn up q e rawRow delta c (keysRow c) 0).1
        else keysRow c := by
  intro k
  induction k with
  | zero =>
    intro j keysRow cookedRow c
    rw [if_neg (by omega)]
    rfl
  | succ k ih =>
    intro j keysRow cookedRow c
    simp only [colLoop]
    rw [ih]
    rcases eq_or_ne c j with rfl | hne
    · rw [if_neg (by omega), Function.update_same, if_pos (by omega)]
      exact keyStep_fst_ignores_cooked ..
    · simp only [Function.update_noteq hne]
      have hiff : (j + 1 ≤ c ∧ c < j + 1 + k) ↔ (j ≤ c ∧ c < j + (k + 1)) := by
        omega
      exact if_congr hiff rfl rfl

theorem colLoop_cooked (dn up q e rawRow delta : Nat) :
    ∀ (k j : Nat) (keysRow : Nat → KeySt) (cookedRow : Nat) (b : Nat),
      ((colLoop dn up q e rawRow delta j k keysRow cookedRow).2).testBit b =
        if j ≤ b ∧ b < j + k ∧ commits e delta b (keysRow b) then
          !(cookedRow.testBit b)
        else cookedRow.testBit b := by
  intro k
  induction k with
  | zero =>
    intro j keysRow cookedRow b
    rw [if_neg (by omega)]
    rfl
  | succ k ih =>
    intro j keysRow cookedRow b
    simp only [colLoop]
    rw [ih]
    rcases eq_or_ne b j with rfl | hne
    · rw [if_neg (by omega), keyStep_snd_testBit]
      by_cases hcm : commits e delta b (keysRow b)
      · rw [if_pos ⟨rfl, hcm⟩, if_pos ⟨le_refl b, by omega, hcm⟩]
      · have h1 : ¬ (b = b ∧ commits e delta b (keysRow b)) := fun h => hcm h.2
        have h2 : ¬ (b ≤ b ∧ b < b + (k + 1) ∧ commits e delta b (keysRow b)) :=
          fun h => hcm h.2.2
        rw [if_neg h1, if_neg h2]
    · simp only [Function.update_noteq hne]
      have hD : ¬ (b = j ∧ commits e delta j (keysRow j)) := fun h => hne h.1
      rw [keyStep_snd_testBit, if_neg hD]
      have hiff : (j + 1 ≤ b ∧ b < j + 1 + k ∧ commits e delta b (keysRow b)) ↔
          (j ≤ b ∧ b < j + (k + 1) ∧ commits e delta b (keysRow b)) := by
        constructor <;> (rintro ⟨h1, h2, h3⟩; exact ⟨by omega, by omega, h3⟩)
      exact if_congr hiff rfl rfl

theorem rowLoop_keys (dn up q e cols : Nat) (raw : Nat → Nat) :
    ∀ (k r : Nat) (keys : Nat → Nat → KeySt) (cooked : Nat → Nat) (r' : Nat),
      ((rowLoop dn up q e cols raw r k keys cooked).1) r' =
        if r ≤ r' ∧ r' < r + k then
          (colLoop dn up q e (raw r') ((cooked r') ^^^ (raw r')) 0 cols
            (keys r') (cooked r')).1
        else keys r' := by
  intro k
  induction k with
  | zero =>
    intro r keys cooked r'
    rw [if_neg (by omega)]
    rfl
  | succ k ih =>
    intro r keys cooked r'
    simp only [rowLoop]
    rw [ih]
    rcases eq_or_ne r' r with rfl | hne
    · rw [if_neg (by omega), Function.update_same, if_pos (by omega)]
    · simp only [Function.update_noteq hne]
      have hiff : (r + 1 ≤ r' ∧ r' < r + 1 + k) ↔ (r ≤ r' ∧ r' < r + (k + 1)) := by
        omega
      exact if_congr hiff rfl rfl

theorem rowLoop_cooked (dn up q e cols : Nat) (raw : Nat → Nat) :
    ∀ (k r : Nat) (keys : Nat → Nat → KeySt) (cooked : Nat → Nat) (r' : Nat),
      ((rowLoop dn up q e cols raw r k keys cooked).2) r' =
        if r ≤ r' ∧ r' < r + k then
          (colLoop dn up q e (raw r') ((cooked r') ^^^ (raw r')) 0 cols
            (keys r') (cooked r')).2
        else cooked r' := by
  intro k
  induction k with
  | zero =>
    intro r keys cooked r'
    rw [if_neg (by omega)]
    rfl
  | succ k ih =>
    intro r keys cooked r'
    simp only [rowLoop]
    rw [ih]
    rcases eq_or_ne r' r with rfl | hne
    · rw [if_neg (by omega), Function.update_same, if_pos (by omega)]
    · simp only [Function.update_noteq hne]
      have hiff : (r + 1 ≤ r' ∧ r' < r + 1 + k) ↔ (r ≤ r' ∧ r' < r + (k + 1)) := by
        omega
      exact if_congr hiff rfl rfl

/-- Per-cell effect of a full `debounce` call on the key state array. -/
theorem debounce_keys_eq (dn up q cols : Nat) (raw cooked : Nat → Nat)
    (nrows : Nat) (ch : Bool) (st : St) (now : Nat) (r c : Nat)
    (hr : r < nrows) (hc : c < cols) :
    ((debounce dn up q cols raw cooked nrows ch st now).2).keys r c =
      (keyStep dn up q (get_elapsed now st.clock).1 (raw r)
        ((cooked r) ^^^ (raw r)) c (st.keys r c) 0).1 := by
  show (rowLoop dn up q (get_elapsed now st.clock).1 cols raw 0 nrows
      st.keys cooked).1 r c = _
  rw [rowLoop_keys, if_pos ⟨Nat.zero_le r, by omega⟩,
    colLoop_keys, if_pos ⟨Nat.zero_le c, by omega⟩]

/-- Per-cell effect of a full `debounce` call on the cooked matrix: the
bit flips exactly when the cell commits (DEBOUNCING with the mismatch
still present and the counter expired). -/
theorem debounce_cooked_testBit (dn up q cols : Nat) (raw cooked : Nat → Nat)
    (nrows : Nat) (ch : Bool) (st : St) (now : Nat) (r b : Nat)
    (hr : r < nrows) :
    (((debounce dn up q cols raw cooked nrows ch st now).1) r).testBit b =
      if b < cols ∧ commits (get_elapsed now st.clock).1
          ((cooked r) ^^^ (raw r)) b (st.keys r b) then
        !((cooked r).testBit b)
      else (cooked r).testBit b := by
  show ((rowLoop dn up q (get_elapsed now st.clock).1 cols raw 0 nrows
      st.keys cooked).2 r).testBit b = _
  rw [rowLoop_cooked, if_pos ⟨Nat.zero_le r, by omega⟩, colLoop_cooked]
  have hiff : (0 ≤ b ∧ b < 0 + cols ∧ commits (get_elapsed now st.clock).1
      ((cooked r) ^^^ (raw r)) b (st.keys r b)) ↔
      (b < cols ∧ commits (get_elapsed now st.clock).1
        ((cooked r) ^^^ (raw r)) b (st.keys r b)) := by
    constructor
    · rintro ⟨_, h2, h3⟩
      exact ⟨by omega, h3⟩
    · rintro ⟨h2, h3⟩
      exact ⟨Nat.zero_le b, by omega, h3⟩
  exact if_congr hiff rfl rfl

/-- Rows beyond `nrows` of the cooked matrix are untouched. -/
theorem debounce_cooked_out_of_range (dn up q cols : Nat)
    (raw cooked : Nat → Nat) (nrows : Nat) (ch : Bool) (st : St) (now : Nat)
    (r : Nat) (hr : ¬ r < nrows) :
    ((debounce dn up q cols raw cooked nrows ch st now).1) r = cooked r := by
  show (rowLoop dn up q (get_elapsed now st.clock).1 cols raw 0 nrows
      st.keys cooked).2 r = _
  rw [rowLoop_cooked, if_neg (by omega)]

theorem not_commits_of_state_ne (e delta col : Nat) (ks : KeySt)
    (h : ks.state ≠ KState.DEBOUNCING) : ¬ commits e delta col ks := by
  intro hc
  unfold commits at hc
  exact h hc.1

end Fancy

/-- **C3.** Quiescing strategy: a WAITING cell whose raw bit differs from
its cooked bit transitions to DEBOUNCING with the counter armed to the
direction-appropriate window — `DEBOUNCE_DOWN` when the raw bit is set,
`DEBOUNCE_UP` when it is clear — and its cooked bit is untouched on that
call.  Proved of the model, which arms on the `raw_row` bit as intended;
the source line instead applies `&` to the `raw` array parameter itself
(see the note at the head of the `Fancy` section), so the shipped code
does not inspect the cell's raw bit at all. -/
theorem C3_fancy_waiting_to_debouncing (dn up q cols nrows : Nat)
    (raw cooked : Nat → Nat) (ch : Bool) (st : Fancy.St) (now : Nat)
    (r c : Nat) (hr : r < nrows) (hc : c < cols)
    (hw : (st.keys r c).state = Fancy.KState.WAITING)
    (hmm : (raw r).testBit c ≠ (cooked r).testBit c) :
    ((Fancy.debounce dn up q cols raw cooked nrows ch st now).2).keys r c =
      ⟨Fancy.KState.DEBOUNCING, if (raw r).testBit c then dn else up⟩ ∧
    (((Fancy.debounce dn up q cols raw cooked nrows ch st now).1) r).testBit c =
      (cooked r).testBit c := by
  have hd : ((cooked r) ^^^ (raw r)) &&& 2 ^ c ≠ 0 := by
    rw [and_two_pow_ne_zero_iff, Nat.testBit_xor]
    cases hcr : (cooked r).testBit c <;> cases hra : (raw r).testBit c <;>
      simp_all
  constructor
  · rw [Fancy.debounce_keys_eq dn up q cols raw cooked nrows ch st now r c hr hc]
    rcases hks : st.keys r c with ⟨s, rem⟩
    rw [hks] at hw
    have hs : s = Fancy.KState.WAITING := hw
    subst hs
    simp only [Fancy.keyStep, if_pos hd]
    have harm : ((raw r) &&& 2 ^ c ≠ 0) ↔ ((raw r).testBit c = true) :=
      and_two_pow_ne_zero_iff _ _
    exact congrArg (fun v => Fancy.KeySt.mk Fancy.KState.DEBOUNCING v)
      (if_congr harm rfl rfl)
  · rw [Fancy.debounce_cooked_testBit dn up q cols raw cooked nrows ch st now r c hr]
    rw [if_neg]
    rintro ⟨-, hcm⟩
    exact Fancy.not_commits_of_state_ne _ _ _ _ (by rw [hw]; intro hx; cases hx) hcm

theorem C3_fancy_waiting_to_debouncing_witness :
    ((Fancy.debounce 5 5 30 1 (fun _ => (1 : Nat)) (fun _ => (0 : Nat)) 1 true
        (Fancy.debounce_init (fun _ _ => 0)) 0).2).keys 0 0 =
      ⟨Fancy.KState.DEBOUNCING, if (1 : Nat).testBit 0 then 5 else 5⟩ ∧
    (((Fancy.debounce 5 5 30 1 (fun _ => (1 : Nat)) (fun _ => (0 : Nat)) 1 true
        (Fancy.debounce_init (fun _ _ => 0)) 0).1) 0).testBit 0 =
      (0 : Nat).testBit 0 :=
  C3_fancy_waiting_to_debouncing 5 5 30 1 1 (fun _ => 1) (fun _ => 0) true
    (Fancy.debounce_init (fun _ _ => 0)) 0 0 0 (by decide) (by decide) rfl
    (by decide)

/-- **C9.** Quiescing strategy: while a cell is in QUIESCING (SETTLING),
the raw matrix is ignored — the next key state is QUIESCING with the
counter decremented when the counter still exceeds the elapsed delta and
WAITING otherwise, an expression independent of `raw`, so the cell never
re-enters DEBOUNCING on this call — its cooked bit never changes, and the
QUIESCING→WAITING transition happens exactly when the quiesce counter
elapses. -/
theorem C9_fancy_quiescing_settles (dn up q cols nrows : Nat)
    (raw cooked : Nat → Nat) (ch : Bool) (st : Fancy.St) (now : Nat)
    (r c rem : Nat) (hr : r < nrows) (hc : c < cols)
    (hq : st.keys r c = ⟨Fancy.KState.QUIESCING, rem⟩) :
    ((Fancy.debounce dn up q cols raw cooked nrows ch st now).2).keys r c =
      (if rem > (get_elapsed now st.clock).1 then
        (⟨Fancy.KState.QUIESCING, rem - (get_elapsed now st.clock).1⟩ : Fancy.KeySt)
      else ⟨Fancy.KState.WAITING, rem⟩) ∧
    (((Fancy.debounce dn up q cols raw cooked nrows ch st now).1) r).testBit c =
      (cooked r).testBit c := by
  constructor
  · rw [Fancy.debounce_keys_eq dn up q cols raw cooked nrows ch st now r c hr hc,
      hq]
    simp only [Fancy.keyStep]
    split <;> rfl
  · rw [Fancy.debounce_cooked_testBit dn up q cols raw cooked nrows ch st now r c hr]
    rw [if_neg]
    rintro ⟨-, hcm⟩
    exact Fancy.not_commits_of_state_ne _ _ _ _
      (by rw [hq]; intro hx; cases hx) hcm

theorem C9_fancy_quiescing_settles_witness :
    ((Fancy.debounce 5 5 30 1 (fun _ => (1 : Nat)) (fun _ => (0 : Nat)) 1 true
        (⟨fun _ _ => ⟨Fancy.KState.QUIESCING, 30⟩, ⟨true, 0⟩⟩ : Fancy.St) 7).2).keys 0 0 =
      (if 30 > (get_elapsed 7 (⟨true, 0⟩ : Clock)).1 then
        (⟨Fancy.KState.QUIESCING, 30 - (get_elapsed 7 (⟨true, 0⟩ : Clock)).1⟩ : Fancy.KeySt)
      else ⟨Fancy.KState.WAITING, 30⟩) ∧
    (((Fancy.debounce 5 5 30 1 (fun _ => (1 : Nat)) (fun _ => (0 : Nat)) 1 true
        (⟨fun _ _ => ⟨Fancy.KState.QUIESCING, 30⟩, ⟨true, 0⟩⟩ : Fancy.St) 7).1) 0).testBit 0 =
      (0 : Nat).testBit 0 :=
  C9_fancy_quiescing_settles 5 5 30 1 1 (fun _ => 1) (fun _ => 0) true
    ⟨fun _ _ => ⟨Fancy.KState.QUIESCING, 30⟩, ⟨true, 0⟩⟩ 7 0 0 30
    (by decide) (by decide) rfl

/-- One filter-call input: the raw matrix, the caller's change flag and
the current timer reading. -/
structure CallIn where
  raw : Nat → Nat
  changed : Bool
  now : Nat

/-! ## Asymmetric fixed-delay strategy (`asym defer`, `src/unnamed/part_000`)

One `count` byte per cell plus a per-row `row_counts` byte.  `debounce`
computes `elapsed16 = timer_elapsed(last_time)` — note that the source
sets `last_time` only in `debounce_init` and never updates it inside
`debounce`, so the elapsed value is measured from initialization, not
from the previous call; the model reproduces this faithfully. -/

namespace Asym

structure St where
  count : Nat → Nat → Nat
  rowCounts : Nat → Nat
  lastTime : Nat

/-- `debounce_init`: `calloc` zeroes both arrays; `last_time` is set to
the current timer reading. -/
def debounce_init (now : Nat) : St :=
  ⟨fun _ _ => 0, fun _ => 0, now⟩

/-- The body of the inner column loop (`part_000` lines 78-90) for one
cell, acting on the row's count column, the row activity count, and the
partially updated `cooked_row`.  The `--row_counts[row]` decrement is on
a `uint8_t`; it is modelled with truncated `Nat` subtraction, which
agrees with the machine whenever the row count is positive — guaranteed
on reachable states by the row-count invariant proved below. -/
def colStep (dn up e : Nat) (changed : Bool) (rawRow delta : Nat) (col : Nat)
    (cnt : Nat → Nat) (rc : Nat) (cookedRow : Nat) : (Nat → Nat) × Nat × Nat :=
  if changed ∧ delta &&& 2 ^ col ≠ 0 then
    let newCount := if rawRow &&& 2 ^ col ≠ 0 then dn else up
    (Function.update cnt col newCount,
      (if cnt col = 0 then rc + 1 else rc), cookedRow)
  else if cnt col > e then
    (Function.update cnt col (cnt col - e), rc, cookedRow)
  else if cnt col ≠ 0 then
    (Function.update cnt col 0, rc - 1,
      andNot cookedRow (2 ^ col) ||| (2 ^ col &&& rawRow))
  else
    (cnt, rc, cookedRow)

/-- The inner column loop, processing columns `j, ..., j+k-1`. -/
def colLoop (dn up e : Nat) (changed : Bool) (rawRow delta : Nat) :
    Nat → Nat → (Nat → Nat) → Nat → Nat → ((Nat → Nat) × Nat × Nat)
  | _, 0, cnt, rc, cookedRow => (cnt, rc, cookedRow)
  | j, k + 1, cnt, rc, cookedRow =>
      let s := colStep dn up e changed rawRow delta j cnt rc cookedRow
      colLoop dn up e changed rawRow delta (j + 1) k s.1 s.2.1 s.2.2

/-- The outer row loop, including the `row_counts[row] == 0 && !changed`
fast-path skip. -/
def rowLoop (dn up e cols : Nat) (changed : Bool) (raw : Nat → Nat) :
    Nat → Nat → (Nat → Nat → Nat) → (Nat → Nat) → (Nat → Nat) →
      ((Nat → Nat → Nat) × (Nat → Nat) × (Nat → Nat))
  | _, 0, count, rowCounts, cooked => (count, rowCounts, cooked)
  | r, k + 1, count, rowCounts, cooked =>
      if rowCounts r = 0 ∧ changed = false then
        rowLoop dn up e cols changed raw (r + 1) k count rowCounts cooked
      else
        let rawRow := raw r
        let cookedRow := cooked r
        let delta := rawRow ^^^ cookedRow
        let s := colLoop dn up e changed rawRow delta 0 cols
          (count r) (rowCounts r) cookedRow
        rowLoop dn up e cols changed raw (r + 1) k
          (Function.update count r s.1)
          (Function.update rowCounts r s.2.1)
          (Function.update cooked r s.2.2)

/-- The elapsed computation of `part_000` lines 61-62:
`timer_elapsed(last_time)` clamped to one byte. -/
def elapsedA (st : St) (now : Nat) : Nat :=
  let elapsed16 := timerDiff16 now st.lastTime
  if elapsed16 > 255 then 255 else elapsed16

/-- `debounce` from `part_000`: clamp `timer_elapsed(last_time)` to one
byte and run the row loop.  `last_time` is (faithfully) not updated. -/
def debounce (dn up cols : Nat) (raw : Nat → Nat) (cooked : Nat → Nat)
    (nrows : Nat) (changed : Bool) (st : St) (now : Nat) :
    (Nat → Nat) × St :=
  let s := rowLoop dn up (elapsedA st now) cols changed raw 0 nrows
    st.count st.rowCounts cooked
  (s.2.2, ⟨s.1, s.2.1, st.lastTime⟩)

/-- Iterate `debounce` over a list of filter-call inputs. -/
def runCalls (dn up cols nrows : Nat) :
    List CallIn → ((Nat → Nat) × St) → ((Nat → Nat) × St)
  | [], s => s
  | ci :: rest, s =>
      runCalls dn up cols nrows rest
        (debounce dn up cols ci.raw s.1 nrows ci.changed s.2 ci.now)

/-- Number of columns `c < m` whose counter is nonzero. -/
def countNonzero (cnt : Nat → Nat) : Nat → Nat
  | 0 => 0
  | m + 1 => countNonzero cnt m + (if cnt m ≠ 0 then 1 else 0)

theorem countNonzero_congr (f g : Nat → Nat) :
    ∀ m, (∀ c, c < m → f c = g c) → countNonzero f m = countNonzero g m := by
  intro m
  induction m with
  | zero => intro _; rfl
  | succ m ih =>
    intro h
    simp only [countNonzero]
    rw [ih (fun c hc => h c (by omega)), h m (by omega)]

theorem countNonzero_update (cnt : Nat → Nat) (col v : Nat) :
    ∀ m, col < m →
      countNonzero (Function.update cnt col v) m +
          (if cnt col ≠ 0 then 1 else 0) =
        countNonzero cnt m + (if v ≠ 0 then 1 else 0) := by
  intro m
  induction m with
  | zero => omega
  | succ m ih =>
    intro hcol
    simp only [countNonzero]
    rcases eq_or_ne col m with hcm | hne
    · rw [countNonzero_congr (Function.update cnt col v) cnt m
        (fun c hc => Function.update_noteq (by omega) _ _)]
      rw [hcm, Function.update_same]
      rw [← hcm]
      ring
    · rw [Function.update_noteq (Ne.symm hne)]
      have ih' := ih (by omega)
      omega

theorem countNonzero_eq_zero (f : Nat → Nat) :
    ∀ m, countNonzero f m = 0 → ∀ c, c < m → f c = 0 := by
  intro m
  induction m with
  | zero => omega
  | succ m ih =>
    intro h c hc
    simp only [countNonzero] at h
    rcases eq_or_ne c m with rfl | hne
    · by_contra hz
      rw [if_pos hz] at h
      omega
    · exact ih (by omega) c (by omega)

theorem countNonzero_zero_fun : ∀ m, countNonzero (fun _ => 0) m = 0 := by
  intro m
  induction m with
  | zero => rfl
  | succ m ih =>
    simp only [countNonzero, ih]
    rfl

/-- The new value of one cell's counter after one column-loop iteration
(first component of `colStep` at that column, as a function of the old
counter value only). -/
def nextCount (dn up e : Nat) (changed : Bool) (rawRow delta : Nat)
    (col cv : Nat) : Nat :=
  if changed ∧ delta &&& 2 ^ col ≠ 0 then
    (if rawRow &&& 2 ^ col ≠ 0 then dn else up)
  else if cv > e then cv - e
  else 0

/-- The cell commits on this call: it is not being (re)armed, its counter
does not exceed the elapsed delta, and its counter is nonzero. -/
def commitsA (e : Nat) (changed : Bool) (delta : Nat) (col cv : Nat) : Prop :=
  ¬ (changed ∧ delta &&& 2 ^ col ≠ 0) ∧ ¬ cv > e ∧ cv ≠ 0

instance (e : Nat) (changed : Bool) (delta col cv : Nat) :
    Decidable (commitsA e changed delta col cv) := by
  unfold commitsA
  infer_instance

theorem colStep_count (dn up e : Nat) (changed : Bool) (rawRow delta : Nat)
    (col : Nat) (cnt : Nat → Nat) (rc cookedRow : Nat) (c : Nat) :
    (colStep dn up e changed rawRow delta col cnt rc cookedRow).1 c =
      if c = col then nextCount dn up e changed rawRow delta col (cnt col)
      else cnt c := by
  unfold colStep nextCount
  by_cases h1 : changed ∧ delta &&& 2 ^ col ≠ 0
  · rw [if_pos h1, if_pos h1]
    show Function.update cnt col _ c = _
    rcases eq_or_ne c col with rfl | hne
    · rw [Function.update_same, if_pos rfl]
    · rw [Function.update_noteq hne, if_neg hne]
  · rw [if_neg h1, if_neg h1]
    by_cases h2 : cnt col > e
    · rw [if_pos h2, if_pos h2]
      show Function.update cnt col _ c = _
      rcases eq_or_ne c col with rfl | hne
      · rw [Function.update_same, if_pos rfl]
      · rw [Function.update_noteq hne, if_neg hne]
    · rw [if_neg h2, if_neg h2]
      by_cases h3 : cnt col ≠ 0
      · rw [if_pos h3]
        show Function.update cnt col 0 c = _
        rcases eq_or_ne c col with rfl | hne
        · rw [Function.update_same, if_pos rfl]
        · rw [Function.update_noteq hne, if_neg hne]
      · rw [if_neg h3]
        show cnt c = _
        rcases eq_or_ne c col with rfl | hne
        · rw [if_pos rfl]
          omega
        · rw [if_neg hne]

theorem colStep_cooked_testBit (dn up e : Nat) (changed : Bool)
    (rawRow delta : Nat) (col : Nat) (cnt : Nat → Nat) (rc cookedRow : Nat)
    (b : Nat) :
    ((colStep dn up e changed rawRow delta col cnt rc cookedRow).2.2).testBit b =
      if b = col ∧ commitsA e changed delta col (cnt col) then rawRow.testBit b
      else cookedRow.testBit b := by
  unfold colStep commitsA
  by_cases h1 : changed ∧ delta &&& 2 ^ col ≠ 0
  · have hnc : ¬ (b = col ∧ ¬ (changed = true ∧ delta &&& 2 ^ col ≠ 0) ∧
        ¬ cnt col > e ∧ cnt col ≠ 0) := fun h => h.2.1 h1
    rw [if_pos h1, if_neg hnc]
  · rw [if_neg h1]
    by_cases h2 : cnt col > e
    · have hnc : ¬ (b = col ∧ ¬ (changed = true ∧ delta &&& 2 ^ col ≠ 0) ∧
          ¬ cnt col > e ∧ cnt col ≠ 0) := fun h => h.2.2.1 h2
      rw [if_pos h2, if_neg hnc]
    · rw [if_neg h2]
      by_cases h3 : cnt col ≠ 0
      · rw [if_pos h3]
        show ((andNot cookedRow (2 ^ col)) ||| (2 ^ col &&& rawRow)).testBit b = _
        rw [testBit_maskedCopy]
        rcases eq_or_ne b col with rfl | hne
        · rw [if_pos rfl, if_pos ⟨rfl, h1, h2, h3⟩]
        · have hnc : ¬ (b = col ∧ ¬ (changed = true ∧ delta &&& 2 ^ col ≠ 0) ∧
              ¬ cnt col > e ∧ cnt col ≠ 0) := fun h => hne h.1
          rw [if_neg hne, if_neg hnc]
      · have hnc : ¬ (b = col ∧ ¬ (changed = true ∧ delta &&& 2 ^ col ≠ 0) ∧
            ¬ cnt col > e ∧ cnt col ≠ 0) := fun h => h3 h.2.2.2
        rw [if_neg h3, if_neg hnc]

theorem colStep_rc (dn up e : Nat) (changed : Bool) (rawRow delta : Nat)
    (col cols : Nat) (cnt : Nat → Nat) (rc cookedRow : Nat)
    (hcol : col < cols) (hdn : 1 ≤ dn) (hup : 1 ≤ up)
    (hrc : rc = countNonzero cnt cols) :
    (colStep dn up e changed rawRow delta col cnt rc cookedRow).2.1 =
      countNonzero
        ((colStep dn up e changed rawRow delta col cnt rc cookedRow).1) cols := by
  unfold colStep
  by_cases h1 : changed ∧ delta &&& 2 ^ col ≠ 0
  · rw [if_pos h1]
    show (if cnt col = 0 then rc + 1 else rc) =
      countNonzero
        (Function.update cnt col (if rawRow &&& 2 ^ col ≠ 0 then dn else up)) cols
    have hv : (if rawRow &&& 2 ^ col ≠ 0 then dn else up) ≠ 0 := by
      split <;> omega
    have hu := countNonzero_update cnt col
      (if rawRow &&& 2 ^ col ≠ 0 then dn else up) cols hcol
    rw [if_pos hv] at hu
    by_cases hz : cnt col = 0
    · rw [if_pos hz]
      have hz2 : ¬ (cnt col ≠ 0) := fun h => h hz
      rw [if_neg hz2] at hu
      omega
    · rw [if_neg hz]
      have hz2 : cnt col ≠ 0 := hz
      rw [if_pos hz2] at hu
      omega
  · rw [if_neg h1]
    by_cases h2 : cnt col > e
    · rw [if_pos h2]
      show rc = countNonzero (Function.update cnt col (cnt col - e)) cols
      have hu := countNonzero_update cnt col (cnt col - e) cols hcol
      rw [if_pos (show cnt col - e ≠ 0 by omega),
        if_pos (show cnt col ≠ 0 by omega)] at hu
      omega
    · rw [if_neg h2]
      by_cases h3 : cnt col ≠ 0
      · rw [if_pos h3]
        show rc - 1 = countNonzero (Function.update cnt col 0) cols
        have hu := countNonzero_update cnt col 0 cols hcol
        rw [if_pos h3] at hu
        rw [if_neg (fun h => h rfl)] at hu
        omega
      · rw [if_neg h3]
        exact hrc

theorem colLoop_count (dn up e : Nat) (changed : Bool) (rawRow delta : Nat) :
    ∀ (k j : Nat) (cnt : Nat → Nat) (rc cookedRow : Nat) (c : Nat),
      ((colLoop dn up e changed rawRow delta j k cnt rc cookedRow).1) c =
        if j ≤ c ∧ c < j + k then
          nextCount dn up e changed rawRow delta c (cnt c)
        else cnt c := by
  intro k
  induction k with
  | zero =>
    intro j cnt rc cookedRow c
    rw [if_neg (by omega)]
    rfl
  | succ k ih =>
    intro j cnt rc cookedRow c
    simp only [colLoop]
    rw [ih]
    rcases eq_or_ne c j with rfl | hne
    · rw [if_neg (by omega), colStep_count, if_pos rfl,
        if_pos (show c ≤ c ∧ c < c + (k + 1) by omega)]
    · rw [colStep_count, if_neg hne]
      have hiff : (j + 1 ≤ c ∧ c < j + 1 + k) ↔ (j ≤ c ∧ c < j + (k + 1)) := by
        omega
      exact if_congr hiff rfl rfl

theorem colLoop_cooked_testBit (dn up e : Nat) (changed : Bool)
    (rawRow delta : Nat) :
    ∀ (k j : Nat) (cnt : Nat → Nat) (rc cookedRow : Nat) (b : Nat),
      ((colLoop dn up e changed rawRow delta j k cnt rc cookedRow).2.2).testBit b =
        if j ≤ b ∧ b < j + k ∧ commitsA e changed delta b (cnt b) then
          rawRow.testBit b
        else cookedRow.testBit b := by
  intro k
  induction k with
  | zero =>
    intro j cnt rc cookedRow b
    rw [if_neg (by rintro ⟨h1, h2, -⟩; omega)]
    rfl
  | succ k ih =>
    intro j cnt rc cookedRow b
    simp only [colLoop]
    rw [ih]
    rcases eq_or_ne b j with rfl | hne
    · rw [if_neg (by rintro ⟨h1, -, -⟩; omega), colStep_cooked_testBit]
      by_cases hcm : commitsA e changed delta b (cnt b)
      · rw [if_pos ⟨rfl, hcm⟩, if_pos ⟨le_refl b, by omega, hcm⟩]
      · have h1 : ¬ (b = b ∧ commitsA e changed delta b (cnt b)) := fun h => hcm h.2
        have h2 : ¬ (b ≤ b ∧ b < b + (k + 1) ∧ commitsA e changed delta b (cnt b)) :=
          fun h => hcm h.2.2
        rw [if_neg h1, if_neg h2]
    · rw [colStep_count, if_neg hne]
      have hD : ¬ (b = j ∧ commitsA e changed delta j (cnt j)) := fun h => hne h.1
      rw [colStep_cooked_testBit, if_neg hD]
      have hiff : (j + 1 ≤ b ∧ b < j + 1 + k ∧ commitsA e changed delta b (cnt b)) ↔
          (j ≤ b ∧ b < j + (k + 1) ∧ commitsA e changed delta b (cnt b)) := by
        constructor <;> (rintro ⟨h1, h2, h3⟩; exact ⟨by omega, by omega, h3⟩)
      exact if_congr hiff rfl rfl

theorem colLoop_rc (dn up e cols : Nat) (changed : Bool) (rawRow delta : Nat)
    (hdn : 1 ≤ dn) (hup : 1 ≤ up) :
    ∀ (k j : Nat) (cnt : Nat → Nat) (rc cookedRow : Nat),
      j + k ≤ cols → rc = countNonzero cnt cols →
      (colLoop dn up e changed rawRow delta j k cnt rc cookedRow).2.1 =
        countNonzero
          ((colLoop dn up e changed rawRow delta j k cnt rc cookedRow).1) cols := by
  intro k
  induction k with
  | zero =>
    intro j cnt rc cookedRow _ hrc
    exact hrc
  | succ k ih =>
    intro j cnt rc cookedRow hbound hrc
    simp only [colLoop]
    exact ih (j + 1) _ _ _ (by omega)
      (colStep_rc dn up e changed rawRow delta j cols cnt rc cookedRow
        (by omega) hdn hup hrc)

theorem colStep_id (dn up e rawRow delta col : Nat) (cnt : Nat → Nat)
    (rc cookedRow : Nat) (hz : cnt col = 0) :
    colStep dn up e false rawRow delta col cnt rc cookedRow =
      (cnt, rc, cookedRow) := by
  unfold colStep
  rw [if_neg (fun h => Bool.noConfusion h.1), if_neg (by omega),
    if_neg (fun h => h hz)]

theorem colLoop_id (dn up e rawRow delta : Nat) :
    ∀ (k j : Nat) (cnt : Nat → Nat) (rc cookedRow : Nat),
      (∀ c, c < j + k → cnt c = 0) →
      colLoop dn up e false rawRow delta j k cnt rc cookedRow =
        (cnt, rc, cookedRow) := by
  intro k
  induction k with
  | zero =>
    intro j cnt rc cookedRow _
    rfl
  | succ k ih =>
    intro j cnt rc cookedRow h
    simp only [colLoop]
    rw [colStep_id dn up e rawRow delta j cnt rc cookedRow (h j (by omega))]
    exact ih (j + 1) cnt rc cookedRow (fun c hc => h c (by omega))

/-- Per-cell effect of the row loop on all three state components.  A
row in range is either skipped (row count zero and no change flag) or
processed by one column-loop pass over its own row state. -/
theorem rowLoop_cell (dn up e cols : Nat) (changed : Bool) (raw : Nat → Nat) :
    ∀ (k r : Nat) (count : Nat → Nat → Nat) (rowCounts : Nat → Nat)
      (cooked : Nat → Nat) (r' : Nat),
      ((rowLoop dn up e cols changed raw r k count rowCounts cooked).1 r',
        (rowLoop dn up e cols changed raw r k count rowCounts cooked).2.1 r',
        (rowLoop dn up e cols changed raw r k count rowCounts cooked).2.2 r') =
        if r ≤ r' ∧ r' < r + k ∧ ¬ (rowCounts r' = 0 ∧ changed = false) then
          ((colLoop dn up e changed (raw r') ((raw r') ^^^ (cooked r')) 0 cols
              (count r') (rowCounts r') (cooked r')).1,
            (colLoop dn up e changed (raw r') ((raw r') ^^^ (cooked r')) 0 cols
              (count r') (rowCounts r') (cooked r')).2.1,
            (colLoop dn up e changed (raw r') ((raw r') ^^^ (cooked r')) 0 cols
              (count r') (rowCounts r') (cooked r')).2.2)
        else (count r', rowCounts r', cooked r') := by
  intro k
  induction k with
  | zero =>
    intro r count rowCounts cooked r'
    rw [if_neg (by rintro ⟨h1, h2, -⟩; omega)]
    rfl
  | succ k ih =>
    intro r count rowCounts cooked r'
    simp only [rowLoop]
    by_cases hskip : rowCounts r = 0 ∧ changed = false
    · rw [if_pos hskip, ih]
      rcases eq_or_ne r' r with rfl | hne
      · rw [if_neg (by rintro ⟨h1, -, -⟩; omega),
          if_neg (by rintro ⟨-, -, h3⟩; exact h3 hskip)]
      · have hiff : (r + 1 ≤ r' ∧ r' < r + 1 + k ∧
            ¬ (rowCounts r' = 0 ∧ changed = false)) ↔
            (r ≤ r' ∧ r' < r + (k + 1) ∧
              ¬ (rowCounts r' = 0 ∧ changed = false)) := by
          constructor <;> (rintro ⟨h1, h2, h3⟩; exact ⟨by omega, by omega, h3⟩)
        exact if_congr hiff rfl rfl
    · rw [if_neg hskip, ih]
      rcases eq_or_ne r' r with rfl | hne
      · rw [if_neg (by rintro ⟨h1, -, -⟩; omega)]
        rw [Function.update_same, Function.update_same, Function.update_same]
        rw [if_pos ⟨le_refl r', by omega, hskip⟩]
      · simp only [Function.update_noteq hne]
        have hiff : (r + 1 ≤ r' ∧ r' < r + 1 + k ∧
            ¬ (rowCounts r' = 0 ∧ changed = false)) ↔
            (r ≤ r' ∧ r' < r + (k + 1) ∧
              ¬ (rowCounts r' = 0 ∧ changed = false)) := by
          constructor <;> (rintro ⟨h1, h2, h3⟩; exact ⟨by omega, by omega, h3⟩)
        exact if_congr hiff rfl rfl

/-- The row-count invariant is preserved through the row loop. -/
theorem rowLoop_inv (dn up e cols : Nat) (changed : Bool) (raw : Nat → Nat)
    (hdn : 1 ≤ dn) (hup : 1 ≤ up) :
    ∀ (k r : Nat) (count : Nat → Nat → Nat) (rowCounts : Nat → Nat)
      (cooked : Nat → Nat),
      (∀ t, rowCounts t = countNonzero (count t) cols) →
      ∀ t, (rowLoop dn up e cols changed raw r k count rowCounts cooked).2.1 t =
        countNonzero
          ((rowLoop dn up e cols changed raw r k count rowCounts cooked).1 t)
          cols := by
  intro k
  induction k with
  | zero =>
    intro r count rowCounts cooked hinv t
    exact hinv t
  | succ k ih =>
    intro r count rowCounts cooked hinv t
    simp only [rowLoop]
    by_cases hskip : rowCounts r = 0 ∧ changed = false
    · rw [if_pos hskip]
      exact ih (r + 1) count rowCounts cooked hinv t
    · rw [if_neg hskip]
      apply ih
      intro t'
      rcases eq_or_ne t' r with rfl | hne
      · rw [Function.update_same, Function.update_same]
        exact colLoop_rc dn up e cols changed (raw t') ((raw t') ^^^ (cooked t'))
          hdn hup cols 0 (count t') (rowCounts t') (cooked t') (by omega) (hinv t')
      · rw [Function.update_noteq hne, Function.update_noteq hne]
        exact hinv t'

/-- The row loop without the `row_counts[row] == 0 && !changed` fast-path
skip, used to state that the skip is a pure optimization. -/
def rowLoopNoSkip (dn up e cols : Nat) (changed : Bool) (raw : Nat → Nat) :
    Nat → Nat → (Nat → Nat → Nat) → (Nat → Nat) → (Nat → Nat) →
      ((Nat → Nat → Nat) × (Nat → Nat) × (Nat → Nat))
  | _, 0, count, rowCounts, cooked => (count, rowCounts, cooked)
  | r, k + 1, count, rowCounts, cooked =>
      let s := colLoop dn up e changed (raw r) ((raw r) ^^^ (cooked r)) 0 cols
        (count r) (rowCounts r) (cooked r)
      rowLoopNoSkip dn up e cols changed raw (r + 1) k
        (Function.update count r s.1)
        (Function.update rowCounts r s.2.1)
        (Function.update cooked r s.2.2)

/-- Under the row-count invariant, the row loop with the fast-path skip
computes exactly what the loop without the skip computes: skipping a row
with zero active counters and no change flag is a no-op. -/
theorem rowLoop_eq_noskip (dn up e cols : Nat) (changed : Bool)
    (raw : Nat → Nat) (hdn : 1 ≤ dn) (hup : 1 ≤ up) :
    ∀ (k r : Nat) (count : Nat → Nat → Nat) (rowCounts : Nat → Nat)
      (cooked : Nat → Nat),
      (∀ t, rowCounts t = countNonzero (count t) cols) →
      rowLoop dn up e cols changed raw r k count rowCounts cooked =
        rowLoopNoSkip dn up e cols changed raw r k count rowCounts cooked := by
  intro k
  induction k with
  | zero =>
    intro r count rowCounts cooked _
    rfl
  | succ k ih =>
    intro r count rowCounts cooked hinv
    simp only [rowLoop, rowLoopNoSkip]
    by_cases hskip : rowCounts r = 0 ∧ changed = false
    · obtain ⟨hz, hch⟩ := hskip
      subst hch
      rw [if_pos ⟨hz, rfl⟩]
      have hzero : ∀ c, c < 0 + cols → count r c = 0 := by
        intro c hc
        exact countNonzero_eq_zero (count r) cols (by rw [← hinv r]; exact hz)
          c (by omega)
      rw [colLoop_id dn up e (raw r) ((raw r) ^^^ (cooked r)) cols 0
        (count r) (rowCounts r) (cooked r) hzero]
      show _ = rowLoopNoSkip dn up e cols false raw (r + 1) k
        (Function.update count r (count r))
        (Function.update rowCounts r (rowCounts r))
        (Function.update cooked r (cooked r))
      rw [Function.update_eq_self, Function.update_eq_self,
        Function.update_eq_self]
      exact ih (r + 1) count rowCounts cooked hinv
    · rw [if_neg hskip]
      apply ih
      intro t'
      rcases eq_or_ne t' r with rfl | hne
      · rw [Function.update_same, Function.update_same]
        exact colLoop_rc dn up e cols changed (raw t') ((raw t') ^^^ (cooked t'))
          hdn hup cols 0 (count t') (rowCounts t') (cooked t') (by omega) (hinv t')
      · rw [Function.update_noteq hne, Function.update_noteq hne]
        exact hinv t'

theorem rowLoop_count_cell (dn up e cols : Nat) (changed : Bool)
    (raw : Nat → Nat) (k r : Nat) (count : Nat → Nat → Nat)
    (rowCounts : Nat → Nat) (cooked : Nat → Nat) (r' c : Nat) :
    (rowLoop dn up e cols changed raw r k count rowCounts cooked).1 r' c =
      if r ≤ r' ∧ r' < r + k ∧ ¬ (rowCounts r' = 0 ∧ changed = false) then
        (colLoop dn up e changed (raw r') ((raw r') ^^^ (cooked r')) 0 cols
          (count r') (rowCounts r') (cooked r')).1 c
      else count r' c := by
  have h := rowLoop_cell dn up e cols changed raw k r count rowCounts cooked r'
  by_cases hcond : r ≤ r' ∧ r' < r + k ∧ ¬ (rowCounts r' = 0 ∧ changed = false)
  · rw [if_pos hcond] at h
    rw [if_pos hcond]
    exact congrArg (fun t : (Nat → Nat) × Nat × Nat => t.1 c) h
  · rw [if_neg hcond] at h
    rw [if_neg hcond]
    exact congrArg (fun t : (Nat → Nat) × Nat × Nat => t.1 c) h

theorem rowLoop_rowCounts_cell (dn up e cols : Nat) (changed : Bool)
    (raw : Nat → Nat) (k r : Nat) (count : Nat → Nat → Nat)
    (rowCounts : Nat → Nat) (cooked : Nat → Nat) (r' : Nat) :
    (rowLoop dn up e cols changed raw r k count rowCounts cooked).2.1 r' =
      if r ≤ r' ∧ r' < r + k ∧ ¬ (rowCounts r' = 0 ∧ changed = false) then
        (colLoop dn up e changed (raw r') ((raw r') ^^^ (cooked r')) 0 cols
          (count r') (rowCounts r') (cooked r')).2.1
      else rowCounts r' := by
  have h := rowLoop_cell dn up e cols changed raw k r count rowCounts cooked r'
  by_cases hcond : r ≤ r' ∧ r' < r + k ∧ ¬ (rowCounts r' = 0 ∧ changed = false)
  · rw [if_pos hcond] at h
    rw [if_pos hcond]
    exact congrArg (fun t : (Nat → Nat) × Nat × Nat => t.2.1) h
  · rw [if_neg hcond] at h
    rw [if_neg hcond]
    exact congrArg (fun t : (Nat → Nat) × Nat × Nat => t.2.1) h

theorem rowLoop_cooked_cell (dn up e cols : Nat) (changed : Bool)
    (raw : Nat → Nat) (k r : Nat) (count : Nat → Nat → Nat)
    (rowCounts : Nat → Nat) (cooked : Nat → Nat) (r' b : Nat) :
    ((rowLoop dn up e cols changed raw r k count rowCounts cooked).2.2 r').testBit b =
      if r ≤ r' ∧ r' < r + k ∧ ¬ (rowCounts r' = 0 ∧ changed = false) then
        ((colLoop dn up e changed (raw r') ((raw r') ^^^ (cooked r')) 0 cols
          (count r') (rowCounts r') (cooked r')).2.2).testBit b
      else (cooked r').testBit b := by
  have h := rowLoop_cell dn up e cols changed raw k r count rowCounts cooked r'
  by_cases hcond : r ≤ r' ∧ r' < r + k ∧ ¬ (rowCounts r' = 0 ∧ changed = false)
  · rw [if_pos hcond] at h
    rw [if_pos hcond]
    exact congrArg (fun t : (Nat → Nat) × Nat × Nat => (t.2.2).testBit b) h
  · rw [if_neg hcond] at h
    rw [if_neg hcond]
    exact congrArg (fun t : (Nat → Nat) × Nat × Nat => (t.2.2).testBit b) h

/-- Per-cell effect of a full `debounce` call on a cell's counter. -/
theorem debounce_count_cell (dn up cols : Nat) (raw cooked : Nat → Nat)
    (nrows : Nat) (changed : Bool) (st : St) (now : Nat) (r c : Nat)
    (hr : r < nrows) (hc : c < cols) :
    (debounce dn up cols raw cooked nrows changed st now).2.count r c =
      if st.rowCounts r = 0 ∧ changed = false then st.count r c
      else nextCount dn up (elapsedA st now) changed (raw r)
        ((raw r) ^^^ (cooked r)) c (st.count r c) := by
  show (rowLoop dn up (elapsedA st now) cols changed raw 0 nrows
    st.count st.rowCounts cooked).1 r c = _
  rw [rowLoop_count_cell]
  by_cases hskip : st.rowCounts r = 0 ∧ changed = false
  · rw [if_neg (fun hh => hh.2.2 hskip), if_pos hskip]
  · rw [if_pos ⟨Nat.zero_le r, by omega, hskip⟩, if_neg hskip, colLoop_count,
      if_pos ⟨Nat.zero_le c, by omega⟩]

/-- Per-cell effect of a full `debounce` call on the cooked matrix. -/
theorem debounce_cooked_cell (dn up cols : Nat) (raw cooked : Nat → Nat)
    (nrows : Nat) (changed : Bool) (st : St) (now : Nat) (r b : Nat)
    (hr : r < nrows) :
    (((debounce dn up cols raw cooked nrows changed st now).1) r).testBit b =
      if ¬ (st.rowCounts r = 0 ∧ changed = false) ∧ b < cols ∧
          commitsA (elapsedA st now) changed ((raw r) ^^^ (cooked r)) b
            (st.count r b) then
        (raw r).testBit b
      else (cooked r).testBit b := by
  show ((rowLoop dn up (elapsedA st now) cols changed raw 0 nrows
    st.count st.rowCounts cooked).2.2 r).testBit b = _
  rw [rowLoop_cooked_cell]
  by_cases hskip : st.rowCounts r = 0 ∧ changed = false
  · rw [if_neg (fun hh => hh.2.2 hskip), if_neg (fun hh => hh.1 hskip)]
  · rw [if_pos ⟨Nat.zero_le r, by omega, hskip⟩, colLoop_cooked_testBit]
    by_cases hcb : b < cols ∧ commitsA (elapsedA st now) changed
        ((raw r) ^^^ (cooked r)) b (st.count r b)
    · rw [if_pos ⟨Nat.zero_le b, by omega, hcb.2⟩, if_pos ⟨hskip, hcb⟩]
    · rw [if_neg (fun hh => hcb ⟨by omega, hh.2.2⟩),
        if_neg (fun hh => hcb hh.2)]

/-- The state invariant of the asymmetric strategy: every row's activity
count equals the number of nonzero counters in that row. -/
def RowCountsOk (cols : Nat) (st : St) : Prop :=
  ∀ t, st.rowCounts t = countNonzero (st.count t) cols

/-- `debounce` without the row-skip fast path (comparison point for the
claim that the skip is a pure optimization). -/
def debounceNoSkip (dn up cols : Nat) (raw : Nat → Nat) (cooked : Nat → Nat)
    (nrows : Nat) (changed : Bool) (st : St) (now : Nat) :
    (Nat → Nat) × St :=
  let s := rowLoopNoSkip dn up (elapsedA st now) cols changed raw 0 nrows
    st.count st.rowCounts cooked
  (s.2.2, ⟨s.1, s.2.1, st.lastTime⟩)

theorem debounce_inv_a (dn up cols : Nat) (raw cooked : Nat → Nat)
    (nrows : Nat) (changed : Bool) (st : St) (now : Nat)
    (hdn : 1 ≤ dn) (hup : 1 ≤ up) (hinv : RowCountsOk cols st) :
    RowCountsOk cols (debounce dn up cols raw cooked nrows changed st now).2 := by
  intro t
  exact rowLoop_inv dn up (elapsedA st now) cols changed raw hdn hup nrows 0
    st.count st.rowCounts cooked hinv t

theorem debounce_eq_noskip (dn up cols : Nat) (raw cooked : Nat → Nat)
    (nrows : Nat) (changed : Bool) (st : St) (now : Nat)
    (hdn : 1 ≤ dn) (hup : 1 ≤ up) (hinv : RowCountsOk cols st) :
    debounce dn up cols raw cooked nrows changed st now =
      debounceNoSkip dn up cols raw cooked nrows changed st now := by
  unfold debounce debounceNoSkip
  rw [rowLoop_eq_noskip dn up (elapsedA st now) cols changed raw hdn hup nrows 0
    st.count st.rowCounts cooked hinv]

theorem runCalls_inv_a (dn up cols nrows : Nat) (hdn : 1 ≤ dn) (hup : 1 ≤ up) :
    ∀ (calls : List CallIn) (s : (Nat → Nat) × St),
      RowCountsOk cols s.2 →
      RowCountsOk cols (runCalls dn up cols nrows calls s).2 := by
  intro calls
  induction calls with
  | nil =>
    intro s hs
    exact hs
  | cons ci rest ih =>
    intro s hs
    exact ih _ (debounce_inv_a dn up cols ci.raw s.1 nrows ci.changed s.2 ci.now
      hdn hup hs)

theorem debounce_init_inv_a (cols now0 : Nat) :
    RowCountsOk cols (debounce_init now0) := by
  intro t
  show 0 = countNonzero (fun _ => 0) cols
  rw [countNonzero_zero_fun]

theorem countNonzero_pos (f : Nat → Nat) :
    ∀ m c, c < m → f c ≠ 0 → countNonzero f m ≠ 0 := by
  intro m
  induction m with
  | zero => omega
  | succ m ih =>
    intro c hc hf
    simp only [countNonzero]
    rcases eq_or_ne c m with rfl | hne
    · rw [if_pos hf]
      omega
    · have := ih c (by omega) hf
      omega

/-- Every cell's counter after one call is either unchanged or the value
computed by `nextCount` (covering skipped rows and out-of-range cells). -/
theorem debounce_count_cell_all (dn up cols : Nat) (raw cooked : Nat → Nat)
    (nrows : Nat) (changed : Bool) (st : St) (now : Nat) (r c : Nat) :
    (debounce dn up cols raw cooked nrows changed st now).2.count r c =
        st.count r c ∨
    (debounce dn up cols raw cooked nrows changed st now).2.count r c =
        nextCount dn up (elapsedA st now) changed (raw r)
          ((raw r) ^^^ (cooked r)) c (st.count r c) := by
  by_cases hr : r < nrows
  · by_cases hc : c < cols
    · rw [debounce_count_cell dn up cols raw cooked nrows changed st now r c hr hc]
      by_cases hskip : st.rowCounts r = 0 ∧ changed = false
      · rw [if_pos hskip]
        left
        rfl
      · rw [if_neg hskip]
        right
        rfl
    · left
      show (rowLoop dn up (elapsedA st now) cols changed raw 0 nrows
        st.count st.rowCounts cooked).1 r c = st.count r c
      rw [rowLoop_count_cell]
      by_cases hcond : 0 ≤ r ∧ r < 0 + nrows ∧
          ¬ (st.rowCounts r = 0 ∧ changed = false)
      · rw [if_pos hcond, colLoop_count, if_neg (fun hh => hc (by omega))]
      · rw [if_neg hcond]
  · left
    show (rowLoop dn up (elapsedA st now) cols changed raw 0 nrows
      st.count st.rowCounts cooked).1 r c = st.count r c
    rw [rowLoop_count_cell, if_neg (fun hh => hr (by omega))]

theorem nextCount_le (dn up e : Nat) (changed : Bool) (rawRow delta : Nat)
    (col cv : Nat) :
    nextCount dn up e changed rawRow delta col cv ≤ max (max dn up) cv := by
  unfold nextCount
  split
  · split <;> omega
  · split <;> omega

/-- Counter bound along a run: every per-cell counter stays at most
`max dn up` on any run from initialization. -/
theorem runCalls_count_le (dn up cols nrows : Nat) :
    ∀ (calls : List CallIn) (s : (Nat → Nat) × St),
      (∀ r c, s.2.count r c ≤ max dn up) →
      ∀ r c, (runCalls dn up cols nrows calls s).2.count r c ≤ max dn up := by
  intro calls
  induction calls with
  | nil =>
    intro s hs
    exact hs
  | cons ci rest ih =>
    intro s hs
    apply ih
    intro r c
    rcases debounce_count_cell_all dn up cols ci.raw s.1 nrows ci.changed s.2
      ci.now r c with h | h
    · rw [h]
      exact hs r c
    · rw [h]
      calc nextCount dn up (elapsedA s.2 ci.now) ci.changed (ci.raw r)
            ((ci.raw r) ^^^ (s.1 r)) c (s.2.count r c) ≤
          max (max dn up) (s.2.count r c) := nextCount_le ..
        _ ≤ max dn up := by
          have := hs r c
          omega

/-- One call leaves a settled cell (zero counter, raw bit equal to its
cooked bit) untouched. -/
theorem settled_cell_step (dn up cols : Nat) (raw cooked : Nat → Nat)
    (nrows : Nat) (changed : Bool) (st : St) (now : Nat) (r c : Nat)
    (hr : r < nrows) (hc : c < cols) (hz : st.count r c = 0)
    (hbit : (raw r).testBit c = (cooked r).testBit c) :
    (debounce dn up cols raw cooked nrows changed st now).2.count r c = 0 ∧
    ((debounce dn up cols raw cooked nrows changed st now).1 r).testBit c =
      (cooked r).testBit c := by
  have hdelta : ((raw r) ^^^ (cooked r)) &&& 2 ^ c = 0 := by
    rw [and_two_pow_eq_zero_iff, Nat.testBit_xor, hbit]
    cases (cooked r).testBit c <;> rfl
  constructor
  · rw [debounce_count_cell dn up cols raw cooked nrows changed st now r c hr hc]
    by_cases hskip : st.rowCounts r = 0 ∧ changed = false
    · rw [if_pos hskip]
      exact hz
    · rw [if_neg hskip]
      unfold nextCount
      rw [if_neg (fun h => h.2 hdelta), hz, if_neg (by omega)]
  · rw [debounce_cooked_cell dn up cols raw cooked nrows changed st now r c hr]
    rw [if_neg]
    rintro ⟨-, -, hcm⟩
    exact hcm.2.2 hz

/-- A settled cell stays settled over any sequence of further calls with
the raw matrix unchanged, and its cooked bit never changes. -/
theorem settled_idempotent (dn up cols nrows : Nat) (r c : Nat)
    (hr : r < nrows) (hc : c < cols) (rawM : Nat → Nat) :
    ∀ (calls : List CallIn) (s : (Nat → Nat) × St),
      (∀ ci ∈ calls, ci.raw = rawM) →
      s.2.count r c = 0 →
      (rawM r).testBit c = (s.1 r).testBit c →
      (runCalls dn up cols nrows calls s).2.count r c = 0 ∧
        ((runCalls dn up cols nrows calls s).1 r).testBit c =
          (s.1 r).testBit c := by
  intro calls
  induction calls with
  | nil =>
    intro s _ hz _
    exact ⟨hz, rfl⟩
  | cons ci rest ih =>
    intro s hraw hz hbit
    have hci : ci.raw = rawM := hraw ci (by simp)
    have hstep := settled_cell_step dn up cols ci.raw s.1 nrows ci.changed s.2
      ci.now r c hr hc hz (by rw [hci]; exact hbit)
    have hnext := ih (debounce dn up cols ci.raw s.1 nrows ci.changed s.2 ci.now)
      (fun x hx => hraw x (by simp [hx])) hstep.1
      (by rw [hstep.2]; exact hbit)
    show (runCalls dn up cols nrows rest
        (debounce dn up cols ci.raw s.1 nrows ci.changed s.2 ci.now)).2.count r c
          = 0 ∧
      ((runCalls dn up cols nrows rest
        (debounce dn up cols ci.raw s.1 nrows ci.changed s.2 ci.now)).1 r).testBit c
          = (s.1 r).testBit c
    exact ⟨hnext.1, by rw [hnext.2, hstep.2]⟩

end Asym

namespace Fancy

/-- Iterate the quiescing `debounce` over a list of filter-call inputs. -/
def runCalls (dn up q cols nrows : Nat) :
    List CallIn → ((Nat → Nat) × St) → ((Nat → Nat) × St)
  | [], s => s
  | ci :: rest, s =>
      runCalls dn up q cols nrows rest
        (debounce dn up q cols ci.raw s.1 nrows ci.changed s.2 ci.now)

/-- One call leaves a WAITING cell whose raw bit equals its cooked bit
completely untouched: state record and cooked bit unchanged. -/
theorem settled_cell_step_f (dn up q cols : Nat) (raw cooked : Nat → Nat)
    (nrows : Nat) (ch : Bool) (st : St) (now : Nat) (r c : Nat)
    (hr : r < nrows) (hc : c < cols)
    (hw : (st.keys r c).state = KState.WAITING)
    (hbit : (raw r).testBit c = (cooked r).testBit c) :
    (debounce dn up q cols raw cooked nrows ch st now).2.keys r c =
        st.keys r c ∧
    ((debounce dn up q cols raw cooked nrows ch st now).1 r).testBit c =
      (cooked r).testBit c := by
  have hdelta : ((cooked r) ^^^ (raw r)) &&& 2 ^ c = 0 := by
    rw [and_two_pow_eq_zero_iff, Nat.testBit_xor, ← hbit]
    cases (raw r).testBit c <;> rfl
  constructor
  · rw [debounce_keys_eq dn up q cols raw cooked nrows ch st now r c hr hc]
    rcases hks : st.keys r c with ⟨s, rem⟩
    rw [hks] at hw
    cases s
    · simp only [keyStep]
      rw [if_neg (fun hh => hh hdelta)]
    · exact absurd (show KState.DEBOUNCING = KState.WAITING from hw) (by decide)
    · exact absurd (show KState.QUIESCING = KState.WAITING from hw) (by decide)
  · rw [debounce_cooked_testBit dn up q cols raw cooked nrows ch st now r c hr]
    rw [if_neg]
    rintro ⟨-, hcm⟩
    exact (not_commits_of_state_ne _ _ _ _ (by rw [hw]; decide)) hcm

/-- A WAITING cell whose raw bit equals its cooked bit stays WAITING over
any sequence of further calls with the raw matrix unchanged, and its
cooked bit never changes. -/
theorem settled_idempotent_f (dn up q cols nrows : Nat) (r c : Nat)
    (hr : r < nrows) (hc : c < cols) (rawM : Nat → Nat) :
    ∀ (calls : List CallIn) (s : (Nat → Nat) × St),
      (∀ ci ∈ calls, ci.raw = rawM) →
      (s.2.keys r c).state = KState.WAITING →
      (rawM r).testBit c = (s.1 r).testBit c →
      (runCalls dn up q cols nrows calls s).2.keys r c = s.2.keys r c ∧
        ((runCalls dn up q cols nrows calls s).1 r).testBit c =
          (s.1 r).testBit c := by
  intro calls
  induction calls with
  | nil =>
    intro s _ _ _
    exact ⟨rfl, rfl⟩
  | cons ci rest ih =>
    intro s hraw hw hbit
    have hci : ci.raw = rawM := hraw ci (by simp)
    have hstep := settled_cell_step_f dn up q cols ci.raw s.1 nrows ci.changed
      s.2 ci.now r c hr hc hw (by rw [hci]; exact hbit)
    have hnext := ih (debounce dn up q cols ci.raw s.1 nrows ci.changed s.2
        ci.now)
      (fun x hx => hraw x (by simp [hx]))
      (by rw [hstep.1]; exact hw)
      (by rw [hstep.2]; exact hbit)
    refine ⟨?_, ?_⟩
    · show (runCalls dn up q cols nrows rest
        (debounce dn up q cols ci.raw s.1 nrows ci.changed s.2 ci.now)).2.keys
          r c = s.2.keys r c
      rw [hnext.1, hstep.1]
    · show ((runCalls dn up q cols nrows rest
        (debounce dn up q cols ci.raw s.1 nrows ci.changed s.2 ci.now)).1
          r).testBit c = (s.1 r).testBit c
      rw [hnext.2, hstep.2]

/-- The per-cell step never underflows: when the cell's counter does not
exceed the elapsed delta, the new counter is a reload value (`dn`, `up`
or the quiesce window) or the old value — never a wrapped subtraction. -/
theorem keyStep_saturates (dn up q e rawRow delta col : Nat) (s : KState)
    (rem cr : Nat) (hle : rem ≤ e) :
    (keyStep dn up q e rawRow delta col ⟨s, rem⟩ cr).1.remaining = dn ∨
    (keyStep dn up q e rawRow delta col ⟨s, rem⟩ cr).1.remaining = up ∨
    (keyStep dn up q e rawRow delta col ⟨s, rem⟩ cr).1.remaining = q ∨
    (keyStep dn up q e rawRow delta col ⟨s, rem⟩ cr).1.remaining = rem := by
  cases s
  · simp only [keyStep]
    by_cases h : delta &&& 2 ^ col ≠ 0
    · rw [if_pos h]
      by_cases h2 : rawRow &&& 2 ^ col ≠ 0
      · left
        rw [if_pos h2]
      · right
        left
        rw [if_neg h2]
    · rw [if_neg h]
      right
      right
      right
      rfl
  · simp only [keyStep]
    by_cases h : delta &&& 2 ^ col = 0
    · rw [if_pos h]
      right
      right
      right
      rfl
    · rw [if_neg h, if_neg (by omega)]
      right
      right
      left
      rfl
  · simp only [keyStep]
    rw [if_neg (by omega)]
    right
    right
    right
    rfl

end Fancy

/-- **C1.** (The claim fails on the asymmetric strategy.)  Because
`part_000` never updates `last_time` inside `debounce`, the elapsed value
is measured since initialization.  Concretely: initialize at time 0; at
time 300 a press is observed (counter armed to the 5 ms window); at time
301, with nothing changed, the clamped elapsed value is 255 ≥ 5 and the
press is committed into the cooked matrix; at time 302 — only 2 ms after
the press, well within the 5 ms window — the contrary transition (release)
arrives, yet the cooked matrix already showed the press after the second
call.  The cooked bit thus takes the first-transition value even though
the raw bit changed back before the window elapsed. -/
theorem C1_asym_premature_commit :
    ((((Asym.debounce 5 5 1 (fun _ => 1)
          (Asym.debounce 5 5 1 (fun _ => 1) (fun _ => 0) 1 true
            (Asym.debounce_init 0) 300).1 1 false
          (Asym.debounce 5 5 1 (fun _ => 1) (fun _ => 0) 1 true
            (Asym.debounce_init 0) 300).2 301).1) 0).testBit 0 = true) ∧
    ((((Asym.debounce 5 5 1 (fun _ => 1) (fun _ => 0) 1 true
          (Asym.debounce_init 0) 300).1) 0).testBit 0 = false) ∧
    302 - 300 < 5 := by
  refine ⟨?_, ?_, by omega⟩ <;> decide

/-- **C6.** Asymmetric strategy: after `debounce_init` and after every
`debounce` call (any run from initialization), every row's activity count
equals the exact number of cells in that row whose `count` field is
nonzero; moreover, on any state satisfying this invariant, `debounce`
computes exactly what the variant without the row-skip fast path
computes — the row count only skips rows and never decides commits.
(Hypotheses: the configured windows are nonzero, as with the shipped
`DEBOUNCE_DOWN = DEBOUNCE_UP = DEBOUNCE = 5`.) -/
theorem C6_asym_row_count_invariant (dn up cols nrows : Nat)
    (hdn : 1 ≤ dn) (hup : 1 ≤ up) (calls : List CallIn)
    (cooked0 : Nat → Nat) (now0 : Nat) :
    Asym.RowCountsOk cols
        (Asym.runCalls dn up cols nrows calls
          (cooked0, Asym.debounce_init now0)).2 ∧
    (∀ (raw : Nat → Nat) (changed : Bool) (now : Nat),
      Asym.debounce dn up cols raw
          (Asym.runCalls dn up cols nrows calls
            (cooked0, Asym.debounce_init now0)).1
          nrows changed
          (Asym.runCalls dn up cols nrows calls
            (cooked0, Asym.debounce_init now0)).2 now =
        Asym.debounceNoSkip dn up cols raw
          (Asym.runCalls dn up cols nrows calls
            (cooked0, Asym.debounce_init now0)).1
          nrows changed
          (Asym.runCalls dn up cols nrows calls
            (cooked0, Asym.debounce_init now0)).2 now) := by
  have hinv := Asym.runCalls_inv_a dn up cols nrows hdn hup calls
    (cooked0, Asym.debounce_init now0) (Asym.debounce_init_inv_a cols now0)
  exact ⟨hinv, fun raw changed now =>
    Asym.debounce_eq_noskip dn up cols raw _ nrows changed _ now hdn hup hinv⟩

theorem C6_asym_row_count_invariant_witness :
    (1 ≤ 5) ∧
    Asym.RowCountsOk 1
      (Asym.runCalls 5 5 1 1 [⟨fun _ => 1, true, 3⟩]
        ((fun _ => 0), Asym.debounce_init 0)).2 :=
  ⟨by decide, (C6_asym_row_count_invariant 5 5 1 1 (by decide) (by decide)
    [⟨fun _ => 1, true, 3⟩] (fun _ => 0) 0).1⟩

/-! ## Sparse active-list strategy (`src/unnamed/part_002`)

One `debounce_counter_t` (`remaining`, `next`) per cell, indexed by the
linear cell index `p = row * MATRIX_COLS + col`, plus a list head.
`DEBOUNCE_NULL = 255` is the sentinel (the build requires
`MATRIX_ROWS * MATRIX_COLS < 255`).  `debounce` runs a settle pass that
walks the intrusive list and then, only when `changed` is set, an arm
pass that scans the matrix. -/

namespace Sparse

/-- `DEBOUNCE_NULL`. -/
def DNULL : Nat := 255

structure DC where
  remaining : Nat
  next : Nat
deriving DecidableEq

structure St where
  counters : Nat → DC
  head : Nat
  clock : Clock

/-- `debounce_init`: every counter is zeroed with a null link, the list
head is null and the clock baseline flag is cleared. -/
def debounce_init : St :=
  ⟨fun _ => ⟨0, DNULL⟩, DNULL, ⟨false, 0⟩⟩

/-- The settle pass (`part_002` lines 146-170): walk the list from link
value `p`.  The returned third component is the value the predecessor's
link (`*pp`, initially `debounce_list_head`) ends up holding.  A kept
entry's counter is decremented and its `next` relinked to the settled
rest of the list; an expired entry applies the raw/cooked delta at its
single bit to the cooked matrix, is unlinked and zeroed.  The C `while`
loop is modelled with fuel; `debounce` passes fuel 256, enough for any
duplicate-free list of indices below `DEBOUNCE_NULL = 255`. -/
def settle (raw : Nat → Nat) (e cols : Nat) :
    Nat → (Nat → DC) → (Nat → Nat) → Nat → ((Nat → DC) × (Nat → Nat) × Nat)
  | 0, cs, cooked, p => (cs, cooked, p)
  | fuel + 1, cs, cooked, p =>
      if p = DNULL then (cs, cooked, p)
      else
        let entry := cs p
        if entry.remaining > e then
          let cs1 := Function.update cs p ⟨entry.remaining - e, entry.next⟩
          let s := settle raw e cols fuel cs1 cooked entry.next
          (Function.update s.1 p ⟨(s.1 p).remaining, s.2.2⟩, s.2.1, p)
        else
          let row := p / cols
          let col := p % cols
          let colMask := 2 ^ col
          let delta := ((cooked row) ^^^ (raw row)) &&& colMask
          let cooked1 := Function.update cooked row ((cooked row) ^^^ delta)
          let cs1 := Function.update cs p ⟨0, DNULL⟩
          settle raw e cols fuel cs1 cooked1 entry.next

/-- One cell of the arm pass (`part_002` lines 186-197): if this cell's
raw and cooked bits differ, either push it onto the list head and arm the
direction-appropriate window (if idle), or — fluttering — extend its
counter by the elapsed delta (a `uint8_t` addition, hence `% 256`). -/
def armCell (dn up e cols : Nat) (rawRow cookedRow : Nat) (row col : Nat)
    (cs : Nat → DC) (head : Nat) : (Nat → DC) × Nat :=
  let colMask := 2 ^ col
  if colMask &&& (cookedRow ^^^ rawRow) ≠ 0 then
    let p := row * cols + col
    if (cs p).remaining = 0 then
      (Function.update cs p ⟨(if colMask &&& rawRow ≠ 0 then dn else up), head⟩, p)
    else
      (Function.update cs p ⟨((cs p).remaining + e) % 256, (cs p).next⟩, head)
  else
    (cs, head)

/-- The arm pass's inner column loop over columns `col, ..., col+k-1`. -/
def armColLoop (dn up e cols : Nat) (rawRow cookedRow : Nat) (row : Nat) :
    Nat → Nat → (Nat → DC) → Nat → ((Nat → DC) × Nat)
  | _, 0, cs, head => (cs, head)
  | col, k + 1, cs, head =>
      let s := armCell dn up e cols rawRow cookedRow row col cs head
      armColLoop dn up e cols rawRow cookedRow row (col + 1) k s.1 s.2

/-- The arm pass's row loop (rows `row, ..., row+k-1`), skipping rows
whose raw and cooked rows agree. -/
def armRowLoop (dn up e cols : Nat) (raw cooked : Nat → Nat) :
    Nat → Nat → (Nat → DC) → Nat → ((Nat → DC) × Nat)
  | _, 0, cs, head => (cs, head)
  | row, k + 1, cs, head =>
      let cookedRow := cooked row
      let rawRow := raw row
      let delta := cookedRow ^^^ rawRow
      if delta = 0 then
        armRowLoop dn up e cols raw cooked (row + 1) k cs head
      else
        let s := armColLoop dn up e cols rawRow cookedRow row 0 cols cs head
        armRowLoop dn up e cols raw cooked (row + 1) k s.1 s.2

/-- `debounce` from `part_002`: read the elapsed time, run the settle
pass, and — only if `changed` — the arm pass. -/
def debounce (dn up cols : Nat) (raw : Nat → Nat) (cooked : Nat → Nat)
    (nrows : Nat) (changed : Bool) (st : St) (now : Nat) :
    (Nat → Nat) × St :=
  let r := get_elapsed now st.clock
  let s := settle raw r.1 cols 256 st.counters cooked st.head
  if changed then
    let a := armRowLoop dn up r.1 cols raw s.2.1 0 nrows s.1 s.2.2
    (s.2.1, ⟨a.1, a.2, r.2⟩)
  else
    (s.2.1, ⟨s.1, s.2.2, r.2⟩)

/-- Iterate `debounce` over a list of filter-call inputs. -/
def runCalls (dn up cols nrows : Nat) :
    List CallIn → ((Nat → Nat) × St) → ((Nat → Nat) × St)
  | [], s => s
  | ci :: rest, s =>
      runCalls dn up cols nrows rest
        (debounce dn up cols ci.raw s.1 nrows ci.changed s.2 ci.now)

/-- `IsChain cs p L`: starting from link value `p` and following `next`
fields, one visits exactly the indices of `L` in order and ends at the
null sentinel. -/
def IsChain (cs : Nat → DC) : Nat → List Nat → Prop
  | p, [] => p = DNULL
  | p, a :: L => p = a ∧ IsChain cs (cs a).next L

theorem IsChain_congr_next (cs cs' : Nat → DC) :
    ∀ (L : List Nat) (p : Nat), (∀ i ∈ L, (cs' i).next = (cs i).next) →
      IsChain cs p L → IsChain cs' p L := by
  intro L
  induction L with
  | nil =>
    intro p _ h
    exact h
  | cons a L ih =>
    intro p hnext h
    obtain ⟨hp, h'⟩ := h
    refine ⟨hp, ?_⟩
    rw [hnext a (by simp)]
    exact ih (cs a).next (fun i hi => hnext i (by simp [hi])) h'

/-- Effect on a single bit of the commit performed by the settle pass at
cell `a`: the cooked bit at `a`'s row and column becomes the raw bit,
all other bits are untouched. -/
theorem commit_bit (raw cooked : Nat → Nat) (cols a : Nat) (hcols : 0 < cols)
    (t b : Nat) (hb : b < cols) :
    ((Function.update cooked (a / cols)
        ((cooked (a / cols)) ^^^
          (((cooked (a / cols)) ^^^ (raw (a / cols))) &&& 2 ^ (a % cols)))) t).testBit b =
      if t * cols + b = a then (raw t).testBit b
      else (cooked t).testBit b := by
  rcases eq_or_ne t (a / cols) with ht | ht
  · rw [ht, Function.update_same, testBit_xor_and_two_pow]
    rcases eq_or_ne b (a % cols) with hb' | hb'
    · rw [if_pos hb']
      rw [if_pos (show a / cols * cols + b = a by
        subst hb'
        rw [Nat.mul_comm]
        exact Nat.div_add_mod a cols)]
      rw [Nat.testBit_xor]
      cases (cooked (a / cols)).testBit b <;> cases (raw (a / cols)).testBit b <;>
        rfl
    · rw [if_neg hb']
      rw [if_neg (fun h : a / cols * cols + b = a => hb' (by
        have hmod : (a / cols * cols + b) % cols = a % cols :=
          congrArg (fun x => x % cols) h
        rw [Nat.mul_comm (a / cols) cols, Nat.mul_add_mod,
          Nat.mod_eq_of_lt hb] at hmod
        exact hmod))]
  · rw [Function.update_noteq ht]
    rw [if_neg (fun h : t * cols + b = a => ht (by
      have hdiv : (t * cols + b) / cols = a / cols :=
        congrArg (fun x => x / cols) h
      rw [Nat.mul_comm t cols, Nat.mul_add_div hcols, Nat.div_eq_of_lt hb,
        Nat.add_zero] at hdiv
      exact hdiv))]

/-- Unfolding lemmas for one step of the settle pass. -/
theorem settle_null (raw : Nat → Nat) (e cols f : Nat) (cs : Nat → DC)
    (cooked : Nat → Nat) (p : Nat) (hp : p = DNULL) :
    settle raw e cols (f + 1) cs cooked p = (cs, cooked, p) := by
  simp only [settle]
  rw [if_pos hp]

theorem settle_keep_fst (raw : Nat → Nat) (e cols f : Nat) (cs : Nat → DC)
    (cooked : Nat → Nat) (p : Nat) (hpD : p ≠ DNULL)
    (hkeep : (cs p).remaining > e) :
    (settle raw e cols (f + 1) cs cooked p).1 =
      Function.update
        (settle raw e cols f
          (Function.update cs p ⟨(cs p).remaining - e, (cs p).next⟩)
          cooked (cs p).next).1 p
        ⟨((settle raw e cols f
            (Function.update cs p ⟨(cs p).remaining - e, (cs p).next⟩)
            cooked (cs p).next).1 p).remaining,
          (settle raw e cols f
            (Function.update cs p ⟨(cs p).remaining - e, (cs p).next⟩)
            cooked (cs p).next).2.2⟩ := by
  simp only [settle]
  rw [if_neg hpD, if_pos hkeep]

theorem settle_keep_cooked (raw : Nat → Nat) (e cols f : Nat) (cs : Nat → DC)
    (cooked : Nat → Nat) (p : Nat) (hpD : p ≠ DNULL)
    (hkeep : (cs p).remaining > e) :
    (settle raw e cols (f + 1) cs cooked p).2.1 =
      (settle raw e cols f
        (Function.update cs p ⟨(cs p).remaining - e, (cs p).next⟩)
        cooked (cs p).next).2.1 := by
  simp only [settle]
  rw [if_neg hpD, if_pos hkeep]

theorem settle_keep_link (raw : Nat → Nat) (e cols f : Nat) (cs : Nat → DC)
    (cooked : Nat → Nat) (p : Nat) (hpD : p ≠ DNULL)
    (hkeep : (cs p).remaining > e) :
    (settle raw e cols (f + 1) cs cooked p).2.2 = p := by
  simp only [settle]
  rw [if_neg hpD, if_pos hkeep]

theorem settle_succ_drop (raw : Nat → Nat) (e cols f : Nat) (cs : Nat → DC)
    (cooked : Nat → Nat) (p : Nat) (hpD : p ≠ DNULL)
    (hdrop : ¬ (cs p).remaining > e) :
    settle raw e cols (f + 1) cs cooked p =
      settle raw e cols f (Function.update cs p ⟨0, DNULL⟩)
        (Function.update cooked (p / cols)
          ((cooked (p / cols)) ^^^
            (((cooked (p / cols)) ^^^ (raw (p / cols))) &&& 2 ^ (p % cols))))
        (cs p).next := by
  simp only [settle]
  rw [if_neg hpD, if_neg hdrop]

/-- Characterization of the settle pass on a well-formed list `L`: the
surviving list is the sublist of entries whose counter exceeds the
elapsed delta (each decremented); expired entries are zeroed, unlinked
and have the raw/cooked delta applied at their single bit; cells outside
the list are untouched. -/
theorem settle_spec (raw : Nat → Nat) (e cols : Nat) (hcols : 0 < cols) :
    ∀ (L : List Nat) (fuel : Nat) (cs : Nat → DC) (cooked : Nat → Nat) (p : Nat),
      IsChain cs p L → L.Nodup → (∀ i ∈ L, i < DNULL) → L.length < fuel →
      (IsChain (settle raw e cols fuel cs cooked p).1
          (settle raw e cols fuel cs cooked p).2.2
          (L.filter (fun a => decide (e < (cs a).remaining)))) ∧
      (∀ i, i ∉ L → (settle raw e cols fuel cs cooked p).1 i = cs i) ∧
      (∀ i ∈ L, e < (cs i).remaining →
        ((settle raw e cols fuel cs cooked p).1 i).remaining =
          (cs i).remaining - e) ∧
      (∀ i ∈ L, ¬ e < (cs i).remaining →
        (settle raw e cols fuel cs cooked p).1 i = ⟨0, DNULL⟩) ∧
      (∀ t b, b < cols →
        ((settle raw e cols fuel cs cooked p).2.1 t).testBit b =
          if t * cols + b ∈ L ∧ ¬ e < (cs (t * cols + b)).remaining then
            (raw t).testBit b
          else (cooked t).testBit b) := by
  intro L
  induction L with
  | nil =>
    intro fuel cs cooked p hch hnd hlt hfuel
    obtain ⟨f, rfl⟩ : ∃ f, fuel = f + 1 := ⟨fuel - 1, by omega⟩
    have hp : p = DNULL := hch
    rw [settle_null raw e cols f cs cooked p hp]
    refine ⟨hch, fun i _ => rfl, fun i hi => absurd hi (List.not_mem_nil i),
      fun i hi => absurd hi (List.not_mem_nil i), fun t b _ => ?_⟩
    rw [if_neg (fun h => absurd h.1 (List.not_mem_nil _))]
  | cons a L ih =>
    intro fuel cs cooked p hch hnd hlt hfuel
    obtain ⟨hp, hch2⟩ := hch
    obtain ⟨f, rfl⟩ : ∃ f, fuel = f + 1 := ⟨fuel - 1, by omega⟩
    have ha_lt : a < DNULL := hlt a (by simp)
    subst hp
    have hpD : p ≠ DNULL := by omega
    have hanot : p ∉ L := (List.nodup_cons.mp hnd).1
    have hnd2 : L.Nodup := (List.nodup_cons.mp hnd).2
    have hlt2 : ∀ i ∈ L, i < DNULL := fun i hi => hlt i (by simp [hi])
    have hf2 : L.length < f := by
      simp only [List.length_cons] at hfuel
      omega
    by_cases hkeep : (cs p).remaining > e
    · have hch1 : IsChain
          (Function.update cs p ⟨(cs p).remaining - e, (cs p).next⟩)
          (cs p).next L := by
        refine IsChain_congr_next cs _ L (cs p).next ?_ hch2
        intro i hi
        have hia : i ≠ p := fun h : i = p => hanot (h ▸ hi)
        rw [Function.update_noteq hia]
      obtain ⟨ih1, ih2, ih3, ih4, ih5⟩ := ih f
        (Function.update cs p ⟨(cs p).remaining - e, (cs p).next⟩)
        cooked (cs p).next hch1 hnd2 hlt2 hf2
      have hs1p : (settle raw e cols f
          (Function.update cs p ⟨(cs p).remaining - e, (cs p).next⟩)
          cooked (cs p).next).1 p =
          ⟨(cs p).remaining - e, (cs p).next⟩ := by
        rw [ih2 p hanot, Function.update_same]
      have hfilter : L.filter (fun a => decide (e <
          ((Function.update cs p ⟨(cs p).remaining - e, (cs p).next⟩) a).remaining)) =
          L.filter (fun a => decide (e < (cs a).remaining)) := by
        apply List.filter_congr
        intro i hi
        have hia : i ≠ p := fun h : i = p => hanot (h ▸ hi)
        rw [Function.update_noteq hia]
      rw [hfilter] at ih1
      refine ⟨?_, ?_, ?_, ?_, ?_⟩
      · rw [settle_keep_fst raw e cols f cs cooked p hpD hkeep,
          settle_keep_link raw e cols f cs cooked p hpD hkeep,
          List.filter_cons_of_pos (by simpa using hkeep)]
        refine ⟨rfl, ?_⟩
        rw [Function.update_same]
        refine IsChain_congr_next _ _ _ _ ?_ ih1
        intro i hi
        have hiL : i ∈ L := (List.mem_filter.mp hi).1
        have hia : i ≠ p := fun h : i = p => hanot (h ▸ hiL)
        rw [Function.update_noteq hia]
      · intro i hi
        have hia : i ≠ p := fun h : i = p => hi (by simp [h])
        have hiL : i ∉ L := fun h => hi (by simp [h])
        rw [settle_keep_fst raw e cols f cs cooked p hpD hkeep,
          Function.update_noteq hia, ih2 i hiL, Function.update_noteq hia]
      · intro i hi hkept
        rw [settle_keep_fst raw e cols f cs cooked p hpD hkeep]
        rcases List.mem_cons.mp hi with rfl | hiL
        · rw [Function.update_same]
          rw [hs1p]
        · have hia : i ≠ p := fun h : i = p => hanot (h ▸ hiL)
          rw [Function.update_noteq hia]
          have h3 := ih3 i hiL (by
            rw [Function.update_noteq hia]
            exact hkept)
          rw [Function.update_noteq hia] at h3
          exact h3
      · intro i hi hdrop
        rw [settle_keep_fst raw e cols f cs cooked p hpD hkeep]
        rcases List.mem_cons.mp hi with rfl | hiL
        · exact absurd hkeep hdrop
        · have hia : i ≠ p := fun h : i = p => hanot (h ▸ hiL)
          rw [Function.update_noteq hia]
          exact ih4 i hiL (by
            rw [Function.update_noteq hia]
            exact hdrop)
      · intro t b hb
        rw [settle_keep_cooked raw e cols f cs cooked p hpD hkeep, ih5 t b hb]
        rcases eq_or_ne (t * cols + b) p with hq | hq
        · rw [if_neg (fun h => hanot (hq ▸ h.1)),
            if_neg (fun h => h.2 (hq ▸ hkeep))]
        · rw [Function.update_noteq hq]
          have hiff : (t * cols + b ∈ L ∧ ¬ e < (cs (t * cols + b)).remaining) ↔
              (t * cols + b ∈ p :: L ∧ ¬ e < (cs (t * cols + b)).remaining) := by
            constructor
            · rintro ⟨h1, h2⟩
              exact ⟨by simp [h1], h2⟩
            · rintro ⟨h1, h2⟩
              rcases List.mem_cons.mp h1 with h1 | h1
              · exact absurd h1 hq
              · exact ⟨h1, h2⟩
          exact if_congr hiff rfl rfl
    · rw [settle_succ_drop raw e cols f cs cooked p hpD hkeep]
      have hch1 : IsChain (Function.update cs p ⟨0, DNULL⟩) (cs p).next L := by
        refine IsChain_congr_next cs _ L (cs p).next ?_ hch2
        intro i hi
        have hia : i ≠ p := fun h : i = p => hanot (h ▸ hi)
        rw [Function.update_noteq hia]
      obtain ⟨ih1, ih2, ih3, ih4, ih5⟩ := ih f
        (Function.update cs p ⟨0, DNULL⟩)
        (Function.update cooked (p / cols)
          ((cooked (p / cols)) ^^^
            (((cooked (p / cols)) ^^^ (raw (p / cols))) &&& 2 ^ (p % cols))))
        (cs p).next hch1 hnd2 hlt2 hf2
      have hfilter : L.filter (fun a => decide (e <
          ((Function.update cs p ⟨0, DNULL⟩) a).remaining)) =
          L.filter (fun a => decide (e < (cs a).remaining)) := by
        apply List.filter_congr
        intro i hi
        have hia : i ≠ p := fun h : i = p => hanot (h ▸ hi)
        rw [Function.update_noteq hia]
      rw [hfilter] at ih1
      refine ⟨?_, ?_, ?_, ?_, ?_⟩
      · rw [List.filter_cons_of_neg (by simpa using hkeep)]
        exact ih1
      · intro i hi
        have hia : i ≠ p := fun h : i = p => hi (by simp [h])
        have hiL : i ∉ L := fun h => hi (by simp [h])
        rw [ih2 i hiL, Function.update_noteq hia]
      · intro i hi hkept
        rcases List.mem_cons.mp hi with rfl | hiL
        · exact absurd hkept hkeep
        · have hia : i ≠ p := fun h : i = p => hanot (h ▸ hiL)
          have h3 := ih3 i hiL (by
            rw [Function.update_noteq hia]
            exact hkept)
          rw [Function.update_noteq hia] at h3
          exact h3
      · intro i hi hdrop
        rcases List.mem_cons.mp hi with rfl | hiL
        · rw [ih2 i hanot, Function.update_same]
        · have hia : i ≠ p := fun h : i = p => hanot (h ▸ hiL)
          exact ih4 i hiL (by
            rw [Function.update_noteq hia]
            exact hdrop)
      · intro t b hb
        rw [ih5 t b hb, commit_bit raw cooked cols p hcols t b hb]
        rcases eq_or_ne (t * cols + b) p with hq | hq
        · rw [if_neg (fun h => hanot (hq ▸ h.1)), if_pos hq,
            if_pos ⟨by simp [hq], hq ▸ hkeep⟩]
        · rw [Function.update_noteq hq, if_neg hq]
          have hiff : (t * cols + b ∈ L ∧ ¬ e < (cs (t * cols + b)).remaining) ↔
              (t * cols + b ∈ p :: L ∧ ¬ e < (cs (t * cols + b)).remaining) := by
            constructor
            · rintro ⟨h1, h2⟩
              exact ⟨by simp [h1], h2⟩
            · rintro ⟨h1, h2⟩
              rcases List.mem_cons.mp h1 with h1 | h1
              · exact absurd h1 hq
              · exact ⟨h1, h2⟩
          exact if_congr hiff rfl rfl

/-- Invariant threaded through the arm pass, with `pos` the linear index
of the next cell the scan will visit: the list is a duplicate-free chain
of in-range cells, a cell is linked iff its counter is nonzero, all
counters are bounded by `B`, and every linked cell not yet reached by the
scan additionally satisfies `remaining + e ≤ B` (the settle pass already
subtracted `e` from it on this call), the fact that keeps the flutter
extension `remaining += elapsed` from wrapping the 8-bit counter. -/
def ArmInv (n B e pos : Nat) (cs : Nat → DC) (head : Nat) (L : List Nat) : Prop :=
  IsChain cs head L ∧ L.Nodup ∧ (∀ i ∈ L, i < n) ∧
  (∀ i ∈ L, (cs i).remaining ≠ 0 ∧ (cs i).remaining ≤ B ∧
    (pos ≤ i → (cs i).remaining + e ≤ B)) ∧
  (∀ i, i ∉ L → cs i = ⟨0, DNULL⟩)

theorem ArmInv_mono (n B e pos pos' : Nat) (cs : Nat → DC) (head : Nat)
    (L : List Nat) (hle : pos ≤ pos') (h : ArmInv n B e pos cs head L) :
    ArmInv n B e pos' cs head L := by
  obtain ⟨h1, h2, h3, h4, h5⟩ := h
  exact ⟨h1, h2, h3, fun i hi =>
    ⟨(h4 i hi).1, (h4 i hi).2.1, fun hp => (h4 i hi).2.2 (by omega)⟩, h5⟩

/-- Unfolding lemmas for the three outcomes of `armCell`. -/
theorem armCell_push_fst (dn up e cols : Nat) (rawRow cookedRow : Nat)
    (row col : Nat) (cs : Nat → DC) (head : Nat)
    (hmm : (2 : Nat) ^ col &&& (cookedRow ^^^ rawRow) ≠ 0)
    (hz : (cs (row * cols + col)).remaining = 0) :
    (armCell dn up e cols rawRow cookedRow row col cs head).1 =
      Function.update cs (row * cols + col)
        ⟨(if (2 : Nat) ^ col &&& rawRow ≠ 0 then dn else up), head⟩ := by
  unfold armCell
  rw [if_pos hmm, if_pos hz]

theorem armCell_push_snd (dn up e cols : Nat) (rawRow cookedRow : Nat)
    (row col : Nat) (cs : Nat → DC) (head : Nat)
    (hmm : (2 : Nat) ^ col &&& (cookedRow ^^^ rawRow) ≠ 0)
    (hz : (cs (row * cols + col)).remaining = 0) :
    (armCell dn up e cols rawRow cookedRow row col cs head).2 =
      row * cols + col := by
  unfold armCell
  rw [if_pos hmm, if_pos hz]

theorem armCell_ext_fst (dn up e cols : Nat) (rawRow cookedRow : Nat)
    (row col : Nat) (cs : Nat → DC) (head : Nat)
    (hmm : (2 : Nat) ^ col &&& (cookedRow ^^^ rawRow) ≠ 0)
    (hz : ¬ (cs (row * cols + col)).remaining = 0) :
    (armCell dn up e cols rawRow cookedRow row col cs head).1 =
      Function.update cs (row * cols + col)
        ⟨((cs (row * cols + col)).remaining + e) % 256,
          (cs (row * cols + col)).next⟩ := by
  unfold armCell
  rw [if_pos hmm, if_neg hz]

theorem armCell_ext_snd (dn up e cols : Nat) (rawRow cookedRow : Nat)
    (row col : Nat) (cs : Nat → DC) (head : Nat)
    (hmm : (2 : Nat) ^ col &&& (cookedRow ^^^ rawRow) ≠ 0)
    (hz : ¬ (cs (row * cols + col)).remaining = 0) :
    (armCell dn up e cols rawRow cookedRow row col cs head).2 = head := by
  unfold armCell
  rw [if_pos hmm, if_neg hz]

theorem armCell_skip (dn up e cols : Nat) (rawRow cookedRow : Nat)
    (row col : Nat) (cs : Nat → DC) (head : Nat)
    (hmm : ¬ (2 : Nat) ^ col &&& (cookedRow ^^^ rawRow) ≠ 0) :
    armCell dn up e cols rawRow cookedRow row col cs head = (cs, head) := by
  unfold armCell
  rw [if_neg hmm]

theorem armCell_inv (dn up e cols n B : Nat) (rawRow cookedRow : Nat)
    (row col : Nat) (cs : Nat → DC) (head : Nat) (L : List Nat)
    (hdn : 1 ≤ dn) (hup : 1 ≤ up) (hdnB : dn ≤ B) (hupB : up ≤ B)
    (hB : B ≤ 255) (hp : row * cols + col < n)
    (hInv : ArmInv n B e (row * cols + col) cs head L) :
    ∃ L', ArmInv n B e (row * cols + col + 1)
      (armCell dn up e cols rawRow cookedRow row col cs head).1
      (armCell dn up e cols rawRow cookedRow row col cs head).2 L' := by
  obtain ⟨hch, hnd, hlt, hrem, hout⟩ := hInv
  by_cases hmm : (2 : Nat) ^ col &&& (cookedRow ^^^ rawRow) ≠ 0
  · by_cases hz : (cs (row * cols + col)).remaining = 0
    · rw [armCell_push_fst dn up e cols rawRow cookedRow row col cs head hmm hz,
        armCell_push_snd dn up e cols rawRow cookedRow row col cs head hmm hz]
      have hpnot : row * cols + col ∉ L := fun h => (hrem _ h).1 hz
      refine ⟨(row * cols + col) :: L, ?_, ?_, ?_, ?_, ?_⟩
      · refine ⟨rfl, ?_⟩
        rw [Function.update_same]
        refine IsChain_congr_next cs _ L head ?_ hch
        intro i hi
        have hia : i ≠ row * cols + col := fun h : i = _ => hpnot (h ▸ hi)
        rw [Function.update_noteq hia]
      · exact List.nodup_cons.mpr ⟨hpnot, hnd⟩
      · intro i hi
        rcases List.mem_cons.mp hi with rfl | hiL
        · exact hp
        · exact hlt i hiL
      · intro i hi
        rcases List.mem_cons.mp hi with rfl | hiL
        · rw [Function.update_same]
          refine ⟨by show ¬ (if _ then dn else up) = 0; split <;> omega,
            by show (if _ then dn else up) ≤ B; split <;> omega,
            fun hpos => by omega⟩
        · have hia : i ≠ row * cols + col := fun h : i = _ => hpnot (h ▸ hiL)
          rw [Function.update_noteq hia]
          obtain ⟨q1, q2, q3⟩ := hrem i hiL
          exact ⟨q1, q2, fun hpos => q3 (by omega)⟩
      · intro i hi
        have hia : i ≠ row * cols + col := fun h : i = _ => hi (by simp [h])
        have hiL : i ∉ L := fun h => hi (by simp [h])
        rw [Function.update_noteq hia]
        exact hout i hiL
    · rw [armCell_ext_fst dn up e cols rawRow cookedRow row col cs head hmm hz,
        armCell_ext_snd dn up e cols rawRow cookedRow row col cs head hmm hz]
      have hpmem : row * cols + col ∈ L := by
        by_contra hn2
        have hq := hout _ hn2
        apply hz
        rw [hq]
      obtain ⟨hne, hleB, hpe⟩ := hrem _ hpmem
      have hpe2 : (cs (row * cols + col)).remaining + e ≤ B := hpe (le_refl _)
      have hmod : ((cs (row * cols + col)).remaining + e) % 256 =
          (cs (row * cols + col)).remaining + e := Nat.mod_eq_of_lt (by omega)
      refine ⟨L, ?_, hnd, hlt, ?_, ?_⟩
      · refine IsChain_congr_next cs _ L head ?_ hch
        intro i hi
        rcases eq_or_ne i (row * cols + col) with rfl | hia
        · rw [Function.update_same]
        · rw [Function.update_noteq hia]
      · intro i hi
        rcases eq_or_ne i (row * cols + col) with rfl | hia
        · rw [Function.update_same]
          refine ⟨?_, ?_, fun hpos => by omega⟩
          · show ¬ _ % 256 = 0
            omega
          · show _ % 256 ≤ B
            omega
        · rw [Function.update_noteq hia]
          obtain ⟨q1, q2, q3⟩ := hrem i hi
          exact ⟨q1, q2, fun hpos => q3 (by omega)⟩
      · intro i hi
        have hia : i ≠ row * cols + col := fun h : i = _ => hi (h ▸ hpmem)
        rw [Function.update_noteq hia]
        exact hout i hi
  · rw [armCell_skip dn up e cols rawRow cookedRow row col cs head hmm]
    exact ⟨L, ArmInv_mono n B e _ _ cs head L (by omega)
      ⟨hch, hnd, hlt, hrem, hout⟩⟩

theorem armColLoop_inv (dn up e cols n B : Nat) (rawRow cookedRow : Nat)
    (row : Nat) (hdn : 1 ≤ dn) (hup : 1 ≤ up) (hdnB : dn ≤ B) (hupB : up ≤ B)
    (hB : B ≤ 255) (hrow : row * cols + cols ≤ n) :
    ∀ (k col : Nat) (cs : Nat → DC) (head : Nat) (L : List Nat),
      col + k ≤ cols →
      ArmInv n B e (row * cols + col) cs head L →
      ∃ L', ArmInv n B e (row * cols + (col + k))
        (armColLoop dn up e cols rawRow cookedRow row col k cs head).1
        (armColLoop dn up e cols rawRow cookedRow row col k cs head).2 L' := by
  intro k
  induction k with
  | zero =>
    intro col cs head L _ hInv
    exact ⟨L, hInv⟩
  | succ k ih =>
    intro col cs head L hk hInv
    obtain ⟨L1, hL1⟩ := armCell_inv dn up e cols n B rawRow cookedRow row col
      cs head L hdn hup hdnB hupB hB (by omega) hInv
    simp only [armColLoop]
    obtain ⟨L2, hL2⟩ := ih (col + 1) _ _ L1 (by omega)
      (by rw [show row * cols + (col + 1) = row * cols + col + 1 from by omega]
          exact hL1)
    refine ⟨L2, ?_⟩
    rw [show row * cols + (col + (k + 1)) = row * cols + (col + 1 + k) from by
      omega]
    exact hL2

theorem armRowLoop_inv (dn up e cols n B : Nat) (raw cooked : Nat → Nat)
    (hdn : 1 ≤ dn) (hup : 1 ≤ up) (hdnB : dn ≤ B) (hupB : up ≤ B)
    (hB : B ≤ 255) :
    ∀ (k row : Nat) (cs : Nat → DC) (head : Nat) (L : List Nat),
      (row + k) * cols ≤ n →
      ArmInv n B e (row * cols) cs head L →
      ∃ L', ArmInv n B e ((row + k) * cols)
        (armRowLoop dn up e cols raw cooked row k cs head).1
        (armRowLoop dn up e cols raw cooked row k cs head).2 L' := by
  intro k
  induction k with
  | zero =>
    intro row cs head L _ hInv
    exact ⟨L, hInv⟩
  | succ k ih =>
    intro row cs head L hbound hInv
    have hstep : (row + 1) * cols ≤ n := by
      calc (row + 1) * cols ≤ (row + (k + 1)) * cols :=
            Nat.mul_le_mul_right cols (by omega)
        _ ≤ n := hbound
    simp only [armRowLoop]
    by_cases hd : cooked row ^^^ raw row = 0
    · rw [if_pos hd]
      obtain ⟨L2, hL2⟩ := ih (row + 1) cs head L
        (by rw [show row + 1 + k = row + (k + 1) from by omega]; exact hbound)
        (ArmInv_mono n B e (row * cols) ((row + 1) * cols) cs head L
          (Nat.mul_le_mul_right cols (by omega)) hInv)
      refine ⟨L2, ?_⟩
      rw [show (row + (k + 1)) * cols = (row + 1 + k) * cols from by ring_nf]
      exact hL2
    · rw [if_neg hd]
      obtain ⟨L1, hL1⟩ := armColLoop_inv dn up e cols n B (raw row) (cooked row)
        row hdn hup hdnB hupB hB
        (by rw [show row * cols + cols = (row + 1) * cols from by ring_nf]
            exact hstep)
        cols 0 cs head L (by omega)
        (by rw [show row * cols + 0 = row * cols from by omega]; exact hInv)
      obtain ⟨L2, hL2⟩ := ih (row + 1) _ _ L1
        (by rw [show row + 1 + k = row + (k + 1) from by omega]; exact hbound)
        (by rw [show (row + 1) * cols = row * cols + (0 + cols) from by ring_nf]
            exact hL1)
      refine ⟨L2, ?_⟩
      rw [show (row + (k + 1)) * cols = (row + 1 + k) * cols from by ring_nf]
      exact hL2

theorem nodup_length_le (L : List Nat) (n : Nat) (hnd : L.Nodup)
    (hlt : ∀ i ∈ L, i < n) : L.length ≤ n := by
  classical
  have h1 : L.toFinset.card = L.length := List.toFinset_card_of_nodup hnd
  have h2 : L.toFinset ⊆ Finset.range n := by
    intro x hx
    rw [List.mem_toFinset] at hx
    rw [Finset.mem_range]
    exact hlt x hx
  have h3 := Finset.card_le_card h2
  rw [h1, Finset.card_range] at h3
  exact h3

/-- The sparse strategy's state invariant with counter bound `B`: the
list head reaches a duplicate-free chain of in-range cells; every listed
cell has a nonzero counter at most `B`; every unlisted cell is exactly
`⟨0, DEBOUNCE_NULL⟩`. -/
def Inv (n B : Nat) (cs : Nat → DC) (head : Nat) : Prop :=
  ∃ L : List Nat, IsChain cs head L ∧ L.Nodup ∧ (∀ i ∈ L, i < n) ∧
    (∀ i ∈ L, (cs i).remaining ≠ 0 ∧ (cs i).remaining ≤ B) ∧
    (∀ i, i ∉ L → cs i = ⟨0, DNULL⟩)

theorem ArmInv_to_Inv (n B e pos : Nat) (cs : Nat → DC) (head : Nat)
    (L : List Nat) (h : ArmInv n B e pos cs head L) : Inv n B cs head := by
  obtain ⟨h1, h2, h3, h4, h5⟩ := h
  exact ⟨L, h1, h2, h3, fun i hi => ⟨(h4 i hi).1, (h4 i hi).2.1⟩, h5⟩

/-- After the settle pass of a call, the state satisfies the arm-pass
invariant at scan position 0: in particular every still-linked counter
plus the elapsed delta is at most `B` (it was just decremented by the
elapsed delta), which is what keeps the arm pass's flutter extension
from wrapping. -/
theorem settle_ArmInv (raw : Nat → Nat) (e cols : Nat) (hcols : 0 < cols)
    (n B : Nat) (hn : n ≤ DNULL) (cs : Nat → DC) (cooked : Nat → Nat)
    (head : Nat) (hInv : Inv n B cs head) :
    ∃ L1, ArmInv n B e 0
      (settle raw e cols 256 cs cooked head).1
      (settle raw e cols 256 cs cooked head).2.2 L1 := by
  obtain ⟨L, hch, hnd, hlt, hrem, hout⟩ := hInv
  have hltD : ∀ i ∈ L, i < DNULL := fun i hi => lt_of_lt_of_le (hlt i hi) hn
  have hlen : L.length < 256 := by
    have hq := nodup_length_le L n hnd hlt
    have : (DNULL : Nat) = 255 := rfl
    omega
  obtain ⟨s1, s2, s3, s4, s5⟩ :=
    settle_spec raw e cols hcols L 256 cs cooked head hch hnd hltD hlen
  refine ⟨L.filter (fun a => decide (e < (cs a).remaining)), s1,
    List.Nodup.filter _ hnd, ?_, ?_, ?_⟩
  · intro i hi
    exact hlt i (List.mem_filter.mp hi).1
  · intro i hi
    obtain ⟨hiL, hkept⟩ := List.mem_filter.mp hi
    have hkept2 : e < (cs i).remaining := by simpa using hkept
    have hr := s3 i hiL hkept2
    have hBle := (hrem i hiL).2
    exact ⟨by omega, by omega, fun _ => by omega⟩
  · intro i hi
    by_cases hiL : i ∈ L
    · have hkept : ¬ e < (cs i).remaining := by
        intro hk
        exact hi (List.mem_filter.mpr ⟨hiL, by simpa using hk⟩)
      exact s4 i hiL hkept
    · rw [s2 i hiL]
      exact hout i hiL

/-- Unfolding lemmas for the components of a `debounce` call. -/
theorem debounce_counters_eq (dn up cols : Nat) (raw cooked : Nat → Nat)
    (nrows : Nat) (changed : Bool) (st : St) (now : Nat) :
    (debounce dn up cols raw cooked nrows changed st now).2.counters =
      if changed then
        (armRowLoop dn up (get_elapsed now st.clock).1 cols raw
          (settle raw (get_elapsed now st.clock).1 cols 256 st.counters cooked
            st.head).2.1 0 nrows
          (settle raw (get_elapsed now st.clock).1 cols 256 st.counters cooked
            st.head).1
          (settle raw (get_elapsed now st.clock).1 cols 256 st.counters cooked
            st.head).2.2).1
      else
        (settle raw (get_elapsed now st.clock).1 cols 256 st.counters cooked
          st.head).1 := by
  unfold debounce
  cases changed <;> rfl

theorem debounce_head_eq (dn up cols : Nat) (raw cooked : Nat → Nat)
    (nrows : Nat) (changed : Bool) (st : St) (now : Nat) :
    (debounce dn up cols raw cooked nrows changed st now).2.head =
      if changed then
        (armRowLoop dn up (get_elapsed now st.clock).1 cols raw
          (settle raw (get_elapsed now st.clock).1 cols 256 st.counters cooked
            st.head).2.1 0 nrows
          (settle raw (get_elapsed now st.clock).1 cols 256 st.counters cooked
            st.head).1
          (settle raw (get_elapsed now st.clock).1 cols 256 st.counters cooked
            st.head).2.2).2
      else
        (settle raw (get_elapsed now st.clock).1 cols 256 st.counters cooked
          st.head).2.2 := by
  unfold debounce
  cases changed <;> rfl

theorem debounce_cooked_eq (dn up cols : Nat) (raw cooked : Nat → Nat)
    (nrows : Nat) (changed : Bool) (st : St) (now : Nat) :
    (debounce dn up cols raw cooked nrows changed st now).1 =
      (settle raw (get_elapsed now st.clock).1 cols 256 st.counters cooked
        st.head).2.1 := by
  unfold debounce
  cases changed <;> rfl

/-- One `debounce` call preserves the sparse invariant. -/
theorem debounce_inv (dn up cols nrows B : Nat) (raw cooked : Nat → Nat)
    (changed : Bool) (st : St) (now : Nat) (hcols : 0 < cols)
    (hdn : 1 ≤ dn) (hup : 1 ≤ up) (hdnB : dn ≤ B) (hupB : up ≤ B)
    (hB : B ≤ 255) (hn : nrows * cols ≤ DNULL)
    (hInv : Inv (nrows * cols) B st.counters st.head) :
    Inv (nrows * cols) B
      (debounce dn up cols raw cooked nrows changed st now).2.counters
      (debounce dn up cols raw cooked nrows changed st now).2.head := by
  obtain ⟨L1, hL1⟩ := settle_ArmInv raw (get_elapsed now st.clock).1 cols hcols
    (nrows * cols) B hn st.counters cooked st.head hInv
  rw [debounce_counters_eq, debounce_head_eq]
  cases changed
  · rw [if_neg (by simp), if_neg (by simp)]
    exact ArmInv_to_Inv _ _ _ _ _ _ L1 hL1
  · rw [if_pos rfl, if_pos rfl]
    obtain ⟨L2, hL2⟩ := armRowLoop_inv dn up (get_elapsed now st.clock).1 cols
      (nrows * cols) B raw
      (settle raw (get_elapsed now st.clock).1 cols 256 st.counters cooked
        st.head).2.1
      hdn hup hdnB hupB hB nrows 0
      (settle raw (get_elapsed now st.clock).1 cols 256 st.counters cooked
        st.head).1
      (settle raw (get_elapsed now st.clock).1 cols 256 st.counters cooked
        st.head).2.2
      L1 (le_of_eq (by ring))
      (by rw [show (0 : Nat) * cols = 0 from by ring_nf]
          exact hL1)
    exact ArmInv_to_Inv _ _ _ _ _ _ L2 hL2

theorem debounce_init_inv (n B : Nat) :
    Inv n B debounce_init.counters debounce_init.head := by
  refine ⟨[], rfl, List.nodup_nil, ?_, ?_, ?_⟩
  · intro i hi
    cases hi
  · intro i hi
    cases hi
  · intro i _
    rfl

theorem runCalls_inv (dn up cols nrows B : Nat) (hcols : 0 < cols)
    (hdn : 1 ≤ dn) (hup : 1 ≤ up) (hdnB : dn ≤ B) (hupB : up ≤ B)
    (hB : B ≤ 255) (hn : nrows * cols ≤ DNULL) :
    ∀ (calls : List CallIn) (s : (Nat → Nat) × St),
      Inv (nrows * cols) B s.2.counters s.2.head →
      Inv (nrows * cols) B
        (runCalls dn up cols nrows calls s).2.counters
        (runCalls dn up cols nrows calls s).2.head := by
  intro calls
  induction calls with
  | nil =>
    intro s hs
    exact hs
  | cons ci rest ih =>
    intro s hs
    exact ih _ (debounce_inv dn up cols nrows B ci.raw s.1 ci.changed s.2 ci.now
      hcols hdn hup hdnB hupB hB hn hs)

/-- Fuel-bounded walk of the intrusive list: the indices reachable from
link value `p`. -/
def chainList (cs : Nat → DC) : Nat → Nat → List Nat
  | 0, _ => []
  | fuel + 1, p => if p = DNULL then [] else p :: chainList cs fuel (cs p).next

/-- A cell index is reachable from the list head through the `next`
fields (the fuel 256 covers every well-formed list, whose indices are
all below `DEBOUNCE_NULL = 255` and duplicate-free). -/
def Reachable (cs : Nat → DC) (head i : Nat) : Prop :=
  i ∈ chainList cs 256 head

theorem chainList_eq (cs : Nat → DC) :
    ∀ (L : List Nat) (p : Nat) (fuel : Nat), IsChain cs p L →
      (∀ i ∈ L, i < DNULL) → L.length ≤ fuel →
      chainList cs fuel p = L := by
  intro L
  induction L with
  | nil =>
    intro p fuel hch _ _
    have hp : p = DNULL := hch
    cases fuel with
    | zero => rfl
    | succ f =>
      simp only [chainList]
      rw [if_pos hp]
  | cons a L ih =>
    intro p fuel hch hlt hlen
    obtain ⟨hp, hch2⟩ := hch
    obtain ⟨f, rfl⟩ : ∃ f, fuel = f + 1 :=
      ⟨fuel - 1, by simp only [List.length_cons] at hlen; omega⟩
    have ha : a < DNULL := hlt a (by simp)
    simp only [chainList]
    rw [if_neg (by omega : ¬ p = DNULL), hp,
      ih (cs a).next f hch2 (fun i hi => hlt i (by simp [hi]))
        (by simp only [List.length_cons] at hlen; omega)]

/-- Under the invariant, reachability through the list coincides with
counter nonzero-ness, for every cell. -/
theorem Inv_reachable_iff (n B : Nat) (cs : Nat → DC) (head : Nat)
    (hn : n ≤ DNULL) (hInv : Inv n B cs head) :
    ∀ i, Reachable cs head i ↔ (cs i).remaining ≠ 0 := by
  obtain ⟨L, hch, hnd, hlt, hrem, hout⟩ := hInv
  have hltD : ∀ i ∈ L, i < DNULL := fun i hi => lt_of_lt_of_le (hlt i hi) hn
  have hlen : L.length ≤ 256 := by
    have hq := nodup_length_le L n hnd hlt
    have : (DNULL : Nat) = 255 := rfl
    omega
  have hcl : chainList cs 256 head = L := chainList_eq cs L head 256 hch hltD hlen
  intro i
  unfold Reachable
  rw [hcl]
  constructor
  · intro hi
    exact (hrem i hi).1
  · intro hr
    by_contra hni
    apply hr
    rw [hout i hni]

theorem cell_div_mod (row c cols : Nat) (hcols : 0 < cols) (hc : c < cols) :
    (row * cols + c) / cols = row ∧ (row * cols + c) % cols = c := by
  constructor
  · rw [Nat.mul_comm row cols, Nat.mul_add_div hcols, Nat.div_eq_of_lt hc,
      Nat.add_zero]
  · rw [Nat.mul_comm row cols, Nat.mul_add_mod, Nat.mod_eq_of_lt hc]

/-- The arm pass never touches a cell whose raw and cooked bits agree:
column-loop version. -/
theorem armColLoop_untouched (dn up e cols : Nat) (rawRow cookedRow : Nat)
    (row : Nat) :
    ∀ (k col : Nat) (cs : Nat → DC) (head : Nat) (i : Nat),
      (∀ c, col ≤ c → c < col + k → i = row * cols + c →
        (2 : Nat) ^ c &&& (cookedRow ^^^ rawRow) = 0) →
      (armColLoop dn up e cols rawRow cookedRow row col k cs head).1 i =
        cs i := by
  intro k
  induction k with
  | zero =>
    intro col cs head i _
    rfl
  | succ k ih =>
    intro col cs head i hok
    simp only [armColLoop]
    by_cases hmm : (2 : Nat) ^ col &&& (cookedRow ^^^ rawRow) ≠ 0
    · have hia : i ≠ row * cols + col := fun h =>
        hmm (hok col (le_refl col) (by omega) h)
      by_cases hz : (cs (row * cols + col)).remaining = 0
      · rw [armCell_push_fst dn up e cols rawRow cookedRow row col cs head hmm hz,
          ih (col + 1) _ _ i (fun c h1 h2 h3 => hok c (by omega) (by omega) h3),
          Function.update_noteq hia]
      · rw [armCell_ext_fst dn up e cols rawRow cookedRow row col cs head hmm hz,
          ih (col + 1) _ _ i (fun c h1 h2 h3 => hok c (by omega) (by omega) h3),
          Function.update_noteq hia]
    · rw [armCell_skip dn up e cols rawRow cookedRow row col cs head hmm]
      exact ih (col + 1) cs head i (fun c h1 h2 h3 => hok c (by omega) (by omega) h3)

/-- The arm pass never touches a cell whose raw and cooked bits agree:
row-loop version. -/
theorem armRowLoop_untouched (dn up e cols : Nat) (raw cooked : Nat → Nat)
    (hcols : 0 < cols) :
    ∀ (k row0 : Nat) (cs : Nat → DC) (head : Nat) (i : Nat),
      (2 : Nat) ^ (i % cols) &&& ((cooked (i / cols)) ^^^ (raw (i / cols))) = 0 →
      (armRowLoop dn up e cols raw cooked row0 k cs head).1 i = cs i := by
  intro k
  induction k with
  | zero =>
    intro row0 cs head i _
    rfl
  | succ k ih =>
    intro row0 cs head i hok
    simp only [armRowLoop]
    by_cases hd : cooked row0 ^^^ raw row0 = 0
    · rw [if_pos hd]
      exact ih (row0 + 1) cs head i hok
    · rw [if_neg hd]
      rw [ih (row0 + 1) _ _ i hok]
      apply armColLoop_untouched
      intro c h1 h2 h3
      obtain ⟨hdiv, hmod⟩ := cell_div_mod row0 c cols hcols (by omega)
      rw [← h3] at hdiv hmod
      rw [hdiv, hmod] at hok
      exact hok

/-- A settled cell (counter zero, raw bit equal to cooked bit) is left
completely untouched by one `debounce` call: the settle pass does not
visit it (it is not linked, by the invariant) and the arm pass skips it
(its delta bit is clear). -/
theorem debounce_settled_cell (dn up cols nrows B : Nat)
    (raw cooked : Nat → Nat) (changed : Bool) (st : St) (now : Nat)
    (hcols : 0 < cols) (hn : nrows * cols ≤ DNULL)
    (hInv : Inv (nrows * cols) B st.counters st.head) (i : Nat)
    (hz : (st.counters i).remaining = 0)
    (hbit : (raw (i / cols)).testBit (i % cols) =
      (cooked (i / cols)).testBit (i % cols)) :
    (debounce dn up cols raw cooked nrows changed st now).2.counters i =
      st.counters i ∧
    ((debounce dn up cols raw cooked nrows changed st now).1 (i / cols)).testBit
        (i % cols) = (cooked (i / cols)).testBit (i % cols) := by
  obtain ⟨L, hch, hnd, hlt, hrem, hout⟩ := hInv
  have hltD : ∀ j ∈ L, j < DNULL := fun j hj => lt_of_lt_of_le (hlt j hj) hn
  have hlen : L.length < 256 := by
    have hq := nodup_length_le L (nrows * cols) hnd hlt
    have hD : (DNULL : Nat) = 255 := rfl
    omega
  obtain ⟨s1, s2, s3, s4, s5⟩ := settle_spec raw (get_elapsed now st.clock).1
    cols hcols L 256 st.counters cooked st.head hch hnd hltD hlen
  have hiL : i ∉ L := fun h => (hrem i h).1 hz
  have hsi : (settle raw (get_elapsed now st.clock).1 cols 256 st.counters
      cooked st.head).1 i = st.counters i := s2 i hiL
  have hb : i % cols < cols := Nat.mod_lt i hcols
  have hid : i / cols * cols + i % cols = i := by
    rw [Nat.mul_comm]
    exact Nat.div_add_mod i cols
  have hcooked : ((settle raw (get_elapsed now st.clock).1 cols 256 st.counters
      cooked st.head).2.1 (i / cols)).testBit (i % cols) =
      (cooked (i / cols)).testBit (i % cols) := by
    rw [s5 (i / cols) (i % cols) hb]
    rw [if_neg]
    rintro ⟨hmem, -⟩
    rw [hid] at hmem
    exact hiL hmem
  constructor
  · rw [debounce_counters_eq]
    cases changed
    · rw [if_neg (by simp)]
      exact hsi
    · rw [if_pos rfl]
      have harm := armRowLoop_untouched dn up (get_elapsed now st.clock).1 cols
        raw ((settle raw (get_elapsed now st.clock).1 cols 256 st.counters
          cooked st.head).2.1) hcols nrows 0
        ((settle raw (get_elapsed now st.clock).1 cols 256 st.counters
          cooked st.head).1)
        ((settle raw (get_elapsed now st.clock).1 cols 256 st.counters
          cooked st.head).2.2) i (by
          rw [Nat.land_comm, and_two_pow_eq_zero_iff, Nat.testBit_xor,
            hcooked, ← hbit]
          cases (raw (i / cols)).testBit (i % cols) <;> rfl)
      rw [harm]
      exact hsi
  · rw [debounce_cooked_eq]
    exact hcooked

/-- A linked cell whose counter has expired (does not exceed the elapsed
delta) is committed by the settle pass: it is zeroed and unlinked, and
its cooked bit becomes its raw bit as read on this call; the arm pass
then skips it (its delta bit is clear after the commit). -/
theorem debounce_expiry_cell (dn up cols nrows B : Nat)
    (raw cooked : Nat → Nat) (changed : Bool) (st : St) (now : Nat)
    (hcols : 0 < cols) (hn : nrows * cols ≤ DNULL)
    (hInv : Inv (nrows * cols) B st.counters st.head) (i : Nat)
    (hnz : (st.counters i).remaining ≠ 0)
    (hexp : ¬ (get_elapsed now st.clock).1 < (st.counters i).remaining) :
    (debounce dn up cols raw cooked nrows changed st now).2.counters i =
      ⟨0, DNULL⟩ ∧
    ((debounce dn up cols raw cooked nrows changed st now).1 (i / cols)).testBit
        (i % cols) = (raw (i / cols)).testBit (i % cols) := by
  obtain ⟨L, hch, hnd, hlt, hrem, hout⟩ := hInv
  have hltD : ∀ j ∈ L, j < DNULL := fun j hj => lt_of_lt_of_le (hlt j hj) hn
  have hlen : L.length < 256 := by
    have hq := nodup_length_le L (nrows * cols) hnd hlt
    have hD : (DNULL : Nat) = 255 := rfl
    omega
  obtain ⟨s1, s2, s3, s4, s5⟩ := settle_spec raw (get_elapsed now st.clock).1
    cols hcols L 256 st.counters cooked st.head hch hnd hltD hlen
  have hiL : i ∈ L := by
    by_contra hni
    apply hnz
    rw [hout i hni]
  have hsi : (settle raw (get_elapsed now st.clock).1 cols 256 st.counters
      cooked st.head).1 i = ⟨0, DNULL⟩ := s4 i hiL hexp
  have hb : i % cols < cols := Nat.mod_lt i hcols
  have hid : i / cols * cols + i % cols = i := by
    rw [Nat.mul_comm]
    exact Nat.div_add_mod i cols
  have hcooked : ((settle raw (get_elapsed now st.clock).1 cols 256 st.counters
      cooked st.head).2.1 (i / cols)).testBit (i % cols) =
      (raw (i / cols)).testBit (i % cols) := by
    rw [s5 (i / cols) (i % cols) hb]
    rw [if_pos]
    rw [hid]
    exact ⟨hiL, hexp⟩
  constructor
  · rw [debounce_counters_eq]
    cases changed
    · rw [if_neg (by simp)]
      exact hsi
    · rw [if_pos rfl]
      have harm := armRowLoop_untouched dn up (get_elapsed now st.clock).1 cols
        raw ((settle raw (get_elapsed now st.clock).1 cols 256 st.counters
          cooked st.head).2.1) hcols nrows 0
        ((settle raw (get_elapsed now st.clock).1 cols 256 st.counters
          cooked st.head).1)
        ((settle raw (get_elapsed now st.clock).1 cols 256 st.counters
          cooked st.head).2.2) i (by
          rw [Nat.land_comm, and_two_pow_eq_zero_iff, Nat.testBit_xor, hcooked]
          cases (raw (i / cols)).testBit (i % cols) <;> rfl)
      rw [harm]
      exact hsi
  · rw [debounce_cooked_eq]
    exact hcooked

/-- Observation helper: the value of cooked row 0 and cell 0's counter
after each successive call of a run (used to state the concrete
bouncing scenario of the specification). -/
def runTrace (dn up cols nrows : Nat) :
    List CallIn → ((Nat → Nat) × St) → List (Nat × Nat)
  | [], _ => []
  | ci :: rest, s =>
      let s' := debounce dn up cols ci.raw s.1 nrows ci.changed s.2 ci.now
      (s'.1 0, (s'.2.counters 0).remaining) ::
        runTrace dn up cols nrows rest s'

/-- The ten-tick alternating bounce of the specification's scenario 3:
press on even ticks 0-8, release on odd ticks 1-9 (`changed` on every
call), then one quiet tick at t = 10. -/
def callsC2 : List CallIn :=
  [⟨fun _ => 1, true, 0⟩, ⟨fun _ => 0, true, 1⟩, ⟨fun _ => 1, true, 2⟩,
   ⟨fun _ => 0, true, 3⟩, ⟨fun _ => 1, true, 4⟩, ⟨fun _ => 0, true, 5⟩,
   ⟨fun _ => 1, true, 6⟩, ⟨fun _ => 0, true, 7⟩, ⟨fun _ => 1, true, 8⟩,
   ⟨fun _ => 0, true, 9⟩, ⟨fun _ => 0, false, 10⟩]

/-- Under the invariant, every counter (listed or not) is at most `B`. -/
theorem Inv_remaining_le (n B : Nat) (cs : Nat → DC) (head : Nat)
    (h : Inv n B cs head) : ∀ i, (cs i).remaining ≤ B := by
  obtain ⟨L, -, -, -, hrem, hout⟩ := h
  intro i
  by_cases hiL : i ∈ L
  · exact (hrem i hiL).2
  · rw [hout i hiL]
    exact Nat.zero_le B

/-- After the settle pass, every still-nonzero counter plus the elapsed
delta is at most `B`: the arm pass's `remaining += elapsed` extension
cannot wrap past 255 when `B ≤ 255`. -/
theorem settle_no_wrap (raw : Nat → Nat) (e cols : Nat) (hcols : 0 < cols)
    (n B : Nat) (hn : n ≤ DNULL) (cs : Nat → DC) (cooked : Nat → Nat)
    (head : Nat) (hInv : Inv n B cs head) :
    ∀ i, ((settle raw e cols 256 cs cooked head).1 i).remaining ≠ 0 →
      ((settle raw e cols 256 cs cooked head).1 i).remaining + e ≤ B := by
  obtain ⟨L1, h1, h2, h3, h4, h5⟩ :=
    settle_ArmInv raw e cols hcols n B hn cs cooked head hInv
  intro i hi
  by_cases hiL : i ∈ L1
  · exact (h4 i hiL).2.2 (Nat.zero_le i)
  · exact absurd (by rw [h5 i hiL]) hi

/-- A settled cell (zero counter, raw bit equal to its cooked bit) stays
settled over any sequence of further calls with the raw matrix unchanged,
and its cooked bit never changes. -/
theorem settled_idempotent_s (dn up cols nrows B : Nat) (hcols : 0 < cols)
    (hdn : 1 ≤ dn) (hup : 1 ≤ up) (hdnB : dn ≤ B) (hupB : up ≤ B)
    (hB : B ≤ 255) (hn : nrows * cols ≤ DNULL) (i : Nat) (rawM : Nat → Nat) :
    ∀ (calls : List CallIn) (s : (Nat → Nat) × St),
      (∀ ci ∈ calls, ci.raw = rawM) →
      Inv (nrows * cols) B s.2.counters s.2.head →
      (s.2.counters i).remaining = 0 →
      (rawM (i / cols)).testBit (i % cols) =
        (s.1 (i / cols)).testBit (i % cols) →
      (runCalls dn up cols nrows calls s).2.counters i = s.2.counters i ∧
        ((runCalls dn up cols nrows calls s).1 (i / cols)).testBit (i % cols) =
          (s.1 (i / cols)).testBit (i % cols) := by
  intro calls
  induction calls with
  | nil =>
    intro s _ _ _ _
    exact ⟨rfl, rfl⟩
  | cons ci rest ih =>
    intro s hraw hInv hz hbit
    have hci : ci.raw = rawM := hraw ci (by simp)
    have hstep := debounce_settled_cell dn up cols nrows B ci.raw s.1
      ci.changed s.2 ci.now hcols hn hInv i hz (by rw [hci]; exact hbit)
    have hInv2 := debounce_inv dn up cols nrows B ci.raw s.1 ci.changed s.2
      ci.now hcols hdn hup hdnB hupB hB hn hInv
    have hnext := ih (debounce dn up cols ci.raw s.1 nrows ci.changed s.2
        ci.now)
      (fun x hx => hraw x (by simp [hx])) hInv2
      (by rw [hstep.1]; exact hz)
      (by rw [hstep.2]; exact hbit)
    refine ⟨?_, ?_⟩
    · show (runCalls dn up cols nrows rest
        (debounce dn up cols ci.raw s.1 nrows ci.changed s.2 ci.now)).2.counters
          i = s.2.counters i
      rw [hnext.1, hstep.1]
    · show ((runCalls dn up cols nrows rest
        (debounce dn up cols ci.raw s.1 nrows ci.changed s.2 ci.now)).1
          (i / cols)).testBit (i % cols) = (s.1 (i / cols)).testBit (i % cols)
      rw [hnext.2, hstep.2]

end Sparse

/-- **C5.** Sparse-list lock-step invariant: after `debounce_init` and
after every `debounce` call (any run from initialization), the engine
state satisfies the chain invariant — the list head reaches a
duplicate-free chain of in-range cells, linked cells have nonzero
bounded counters, unlinked cells are exactly `⟨0, DEBOUNCE_NULL⟩` — and
a cell index is reachable from `debounce_list_head` through the `next`
fields if and only if its `remaining` counter is nonzero.  (Hypotheses:
positive column count, nonzero windows at most 255 — the shipped values
are `DEBOUNCE_DOWN = 5`, `DEBOUNCE_UP = 10` — and the build-enforced
bound on the total cell count.) -/
theorem C5_sparse_lockstep (dn up cols nrows : Nat) (hcols : 0 < cols)
    (hdn : 1 ≤ dn) (hup : 1 ≤ up) (hdnB : dn ≤ 255) (hupB : up ≤ 255)
    (hn : nrows * cols ≤ 255) (calls : List CallIn) (cooked0 : Nat → Nat) :
    Sparse.Inv (nrows * cols) (max dn up)
      (Sparse.runCalls dn up cols nrows calls
        (cooked0, Sparse.debounce_init)).2.counters
      (Sparse.runCalls dn up cols nrows calls
        (cooked0, Sparse.debounce_init)).2.head ∧
    ∀ i, Sparse.Reachable
        (Sparse.runCalls dn up cols nrows calls
          (cooked0, Sparse.debounce_init)).2.counters
        (Sparse.runCalls dn up cols nrows calls
          (cooked0, Sparse.debounce_init)).2.head i ↔
      ((Sparse.runCalls dn up cols nrows calls
          (cooked0, Sparse.debounce_init)).2.counters i).remaining ≠ 0 := by
  have hInv := Sparse.runCalls_inv dn up cols nrows (max dn up) hcols hdn hup
    (le_max_left dn up) (le_max_right dn up) (by omega)
    (show nrows * cols ≤ Sparse.DNULL from hn) calls
    (cooked0, Sparse.debounce_init)
    (Sparse.debounce_init_inv (nrows * cols) (max dn up))
  exact ⟨hInv, Sparse.Inv_reachable_iff (nrows * cols) (max dn up) _ _
    (show nrows * cols ≤ Sparse.DNULL from hn) hInv⟩

theorem C5_sparse_lockstep_witness :
    Sparse.Inv (1 * 1) (max 5 10)
      (Sparse.runCalls 5 10 1 1 [⟨fun _ => 1, true, 3⟩]
        ((fun _ => 0), Sparse.debounce_init)).2.counters
      (Sparse.runCalls 5 10 1 1 [⟨fun _ => 1, true, 3⟩]
        ((fun _ => 0), Sparse.debounce_init)).2.head ∧
    ∀ i, Sparse.Reachable
        (Sparse.runCalls 5 10 1 1 [⟨fun _ => 1, true, 3⟩]
          ((fun _ => 0), Sparse.debounce_init)).2.counters
        (Sparse.runCalls 5 10 1 1 [⟨fun _ => 1, true, 3⟩]
          ((fun _ => 0), Sparse.debounce_init)).2.head i ↔
      ((Sparse.runCalls 5 10 1 1 [⟨fun _ => 1, true, 3⟩]
          ((fun _ => 0), Sparse.debounce_init)).2.counters i).remaining ≠ 0 :=
  C5_sparse_lockstep 5 10 1 1 (by decide) (by decide) (by decide) (by decide)
    (by decide) (by decide) [⟨fun _ => 1, true, 3⟩] (fun _ => 0)

/-- **C2 counterexample.**  In the sparse strategy with its own default
windows (`DEBOUNCE_DOWN = 5`, `DEBOUNCE_UP = 10`), the ten-tick
alternating press/release scenario ending released does change the
cooked bit: the press is committed on the ninth call (t = 8).  The
claim's "the cooked bit never changes" is false on the code. -/
theorem C2_sparse_flutter_commits :
    ((Sparse.runCalls 5 10 1 1 Sparse.callsC2
        ((fun _ => 0), Sparse.debounce_init)).1 0).testBit 0 = true := by
  decide

/-- **C2 (amended).**  Each arm-pass call that observes the cell still
mismatched while already linked extends its counter by the elapsed delta
instead of resetting it (visible at t = 2, 4, 6 below, where the counter
gains back the tick it lost in the settle pass).  However, the settle
pass counts the counter down on every call, including those where the
raw bit has bounced back to the cooked value, so under one-tick
alternation the counter drifts downward by one per two ticks: the trace
of (cooked row 0, cell 0's counter) after each call is
5,4,4,3,3,2,2,1 and then the press commits on the ninth call (t = 8),
after which the final release arms the up window.  The cooked bit does
change (to pressed at t = 8), contrary to the original claim. -/
theorem C2_sparse_flutter_trace :
    Sparse.runTrace 5 10 1 1 Sparse.callsC2
        ((fun _ => 0), Sparse.debounce_init) =
      [(0, 5), (0, 4), (0, 4), (0, 3), (0, 3), (0, 2), (0, 2), (0, 1),
        (1, 0), (1, 10), (1, 9)] := by
  decide

/-- **C7 counterexample.**  In the quiescing strategy a counter that does
not exceed the elapsed delta is not set to zero.  With the file's own
defaults (`DEBOUNCE_DOWN = DEBOUNCE_UP = 5`, `DEBOUNCE_QUIESCE = 30`):
a 1×1 matrix whose cell is DEBOUNCING with `remaining = 5`, elapsed 5 on
this call (baseline 0, timer 5) and the mismatch still present.  The
counter 5 ≤ 5 expires, the cell commits — and its counter is reloaded
with the quiesce window 30, not zeroed. -/
theorem C7_fancy_commit_not_zeroed :
    ((Fancy.debounce 5 5 30 1 (fun _ => 1) (fun _ => 0) 1 true
        (⟨fun _ _ => ⟨Fancy.KState.DEBOUNCING, 5⟩, ⟨true, 0⟩⟩ : Fancy.St)
        5).2.keys 0 0 = ⟨Fancy.KState.QUIESCING, 30⟩) ∧
    (5 ≤ (get_elapsed 5 (⟨true, 0⟩ : Clock)).1) ∧ (30 : Nat) ≠ 0 := by
  decide

/-- **C7 (amended).**  Monotonic counters, without the "set to zero"
parenthetical for the quiescing strategy: (a) the asymmetric strategy's
per-cell update saturates — a cell that is not being (re)armed and whose
counter does not exceed the elapsed delta gets counter exactly 0, never
an underflowed value; (b) along any asymmetric run from initialization
every counter stays at most `max DEBOUNCE_DOWN DEBOUNCE_UP`; (c) in the
sparse strategy every counter stays at most the window bound `B` along
any run from an invariant state, and after any settle pass every
still-nonzero counter plus the elapsed delta is at most `B` ≤ 255, so
the arm pass's `remaining += elapsed` byte addition never wraps; (d) in
the quiescing strategy a per-cell step whose counter does not exceed the
elapsed delta never computes a wrapped difference: the new counter is a
reload value (`dn`, `up` or the quiesce window) or the old counter kept
as the state advances — but, contrary to the claim's wording, it is not
zeroed (see the counterexample). -/
theorem C7_monotonic_saturating (dn up q cols nrows B : Nat)
    (hcols : 0 < cols) (hdn : 1 ≤ dn) (hup : 1 ≤ up) (hdnB : dn ≤ B)
    (hupB : up ≤ B) (hB : B ≤ 255) (hn : nrows * cols ≤ Sparse.DNULL) :
    (∀ (e : Nat) (changed : Bool) (rawRow delta col cv : Nat),
      ¬ (changed = true ∧ delta &&& 2 ^ col ≠ 0) → cv ≤ e →
      Asym.nextCount dn up e changed rawRow delta col cv = 0) ∧
    (∀ (calls : List CallIn) (cooked0 : Nat → Nat) (now0 r c : Nat),
      (Asym.runCalls dn up cols nrows calls
        (cooked0, Asym.debounce_init now0)).2.count r c ≤ max dn up) ∧
    (∀ (calls : List CallIn) (s : (Nat → Nat) × Sparse.St),
      Sparse.Inv (nrows * cols) B s.2.counters s.2.head →
      (∀ i, ((Sparse.runCalls dn up cols nrows calls s).2.counters i).remaining
          ≤ B) ∧
      (∀ (raw cooked : Nat → Nat) (e i : Nat),
        ((Sparse.settle raw e cols 256
            (Sparse.runCalls dn up cols nrows calls s).2.counters cooked
            (Sparse.runCalls dn up cols nrows calls s).2.head).1 i).remaining
            ≠ 0 →
        ((Sparse.settle raw e cols 256
            (Sparse.runCalls dn up cols nrows calls s).2.counters cooked
            (Sparse.runCalls dn up cols nrows calls s).2.head).1 i).remaining
            + e ≤ B)) ∧
    (∀ (e rawRow delta col : Nat) (st0 : Fancy.KState) (rem cr : Nat),
      rem ≤ e →
      (Fancy.keyStep dn up q e rawRow delta col ⟨st0, rem⟩ cr).1.remaining = dn ∨
      (Fancy.keyStep dn up q e rawRow delta col ⟨st0, rem⟩ cr).1.remaining = up ∨
      (Fancy.keyStep dn up q e rawRow delta col ⟨st0, rem⟩ cr).1.remaining = q ∨
      (Fancy.keyStep dn up q e rawRow delta col ⟨st0, rem⟩ cr).1.remaining
        = rem) := by
  refine ⟨?_, ?_, ?_, ?_⟩
  · intro e changed rawRow delta col cv hnoarm hle
    unfold Asym.nextCount
    rw [if_neg hnoarm, if_neg (by omega)]
  · intro calls cooked0 now0 r c
    exact Asym.runCalls_count_le dn up cols nrows calls
      (cooked0, Asym.debounce_init now0) (fun _ _ => Nat.zero_le _) r c
  · intro calls s hInv
    have hrun := Sparse.runCalls_inv dn up cols nrows B hcols hdn hup hdnB
      hupB hB hn calls s hInv
    refine ⟨Sparse.Inv_remaining_le (nrows * cols) B _ _ hrun, ?_⟩
    intro raw cooked e i
    exact Sparse.settle_no_wrap raw e cols hcols (nrows * cols) B hn _ cooked
      _ hrun i
  · intro e rawRow delta col st0 rem cr hle
    exact Fancy.keyStep_saturates dn up q e rawRow delta col st0 rem cr hle

theorem C7_monotonic_saturating_witness :
    Asym.nextCount 5 10 3 false 0 0 0 2 = 0 := by
  exact (C7_monotonic_saturating 5 10 30 1 1 10 (by decide) (by decide)
    (by decide) (by decide) (by decide) (by decide) (by decide)).1 3 false 0 0
    0 2 (by decide) (by decide)

/-- **C8.**  Idempotence of settled state, per cell and for each of the
three strategies: once a cell's cooked bit equals its raw bit and its
debounce state is settled (counter zero for the asymmetric and sparse
strategies, WAITING for the quiescing one), any sequence of further
filter calls with the raw matrix unchanged (any `changed` flags, any
timer readings) leaves that cell's cooked bit and debounce state
unchanged.  The sparse conjunct assumes the chain invariant, which holds
on every run from initialization (C5). -/
theorem C8_settled_idempotence (dn up q cols nrows B : Nat)
    (hcols : 0 < cols) (hdn : 1 ≤ dn) (hup : 1 ≤ up) (hdnB : dn ≤ B)
    (hupB : up ≤ B) (hB : B ≤ 255) (hn : nrows * cols ≤ Sparse.DNULL) :
    (∀ (r c : Nat), r < nrows → c < cols →
      ∀ (rawM : Nat → Nat) (calls : List CallIn) (s : (Nat → Nat) × Asym.St),
      (∀ ci ∈ calls, ci.raw = rawM) →
      s.2.count r c = 0 →
      (rawM r).testBit c = (s.1 r).testBit c →
      (Asym.runCalls dn up cols nrows calls s).2.count r c = 0 ∧
        ((Asym.runCalls dn up cols nrows calls s).1 r).testBit c =
          (s.1 r).testBit c) ∧
    (∀ (i : Nat) (rawM : Nat → Nat) (calls : List CallIn)
        (s : (Nat → Nat) × Sparse.St),
      (∀ ci ∈ calls, ci.raw = rawM) →
      Sparse.Inv (nrows * cols) B s.2.counters s.2.head →
      (s.2.counters i).remaining = 0 →
      (rawM (i / cols)).testBit (i % cols) =
        (s.1 (i / cols)).testBit (i % cols) →
      (Sparse.runCalls dn up cols nrows calls s).2.counters i =
          s.2.counters i ∧
        ((Sparse.runCalls dn up cols nrows calls s).1 (i / cols)).testBit
          (i % cols) = (s.1 (i / cols)).testBit (i % cols)) ∧
    (∀ (r c : Nat), r < nrows → c < cols →
      ∀ (rawM : Nat → Nat) (calls : List CallIn) (s : (Nat → Nat) × Fancy.St),
      (∀ ci ∈ calls, ci.raw = rawM) →
      (s.2.keys r c).state = Fancy.KState.WAITING →
      (rawM r).testBit c = (s.1 r).testBit c →
      (Fancy.runCalls dn up q cols nrows calls s).2.keys r c = s.2.keys r c ∧
        ((Fancy.runCalls dn up q cols nrows calls s).1 r).testBit c =
          (s.1 r).testBit c) := by
  refine ⟨?_, ?_, ?_⟩
  · intro r c hr hc rawM calls s h1 h2 h3
    exact Asym.settled_idempotent dn up cols nrows r c hr hc rawM calls s
      h1 h2 h3
  · intro i rawM calls s h1 h2 h3 h4
    exact Sparse.settled_idempotent_s dn up cols nrows B hcols hdn hup hdnB
      hupB hB hn i rawM calls s h1 h2 h3 h4
  · intro r c hr hc rawM calls s h1 h2 h3
    exact Fancy.settled_idempotent_f dn up q cols nrows r c hr hc rawM calls s
      h1 h2 h3

theorem C8_settled_idempotence_witness :
    (Asym.runCalls 5 10 1 1 [⟨fun _ => 1, false, 7⟩]
      ((fun _ => 1), Asym.debounce_init 0)).2.count 0 0 = 0 ∧
    ((Asym.runCalls 5 10 1 1 [⟨fun _ => 1, false, 7⟩]
      ((fun _ => 1), Asym.debounce_init 0)).1 0).testBit 0 =
      (((fun _ => 1) : Nat → Nat) 0).testBit 0 := by
  exact (C8_settled_idempotence 5 10 30 1 1 10 (by decide) (by decide)
    (by decide) (by decide) (by decide) (by decide) (by decide)).1 0 0
    (by decide) (by decide) (fun _ => 1) [⟨fun _ => 1, false, 7⟩]
    ((fun _ => 1), Asym.debounce_init 0)
    (by
      intro ci hci
      rw [List.mem_singleton] at hci
      rw [hci])
    (by rfl) (by rfl)

/-- **C10.**  The commit at counter expiry writes the cell's raw bit as
read on that call.  Sparse: a linked cell whose counter does not exceed
the elapsed delta is zeroed and unlinked (`⟨0, DEBOUNCE_NULL⟩`, no
longer reachable from the list head) and its cooked bit becomes its raw
bit; if the raw bit has returned to the cooked value, the cooked bit is
therefore unchanged.  Asymmetric: under the row-count invariant, a cell
with nonzero counter at most the elapsed delta that is not being
(re)armed has its counter zeroed and its cooked bit masked-copied from
the raw row; again, if the raw bit equals the cooked bit the commit
leaves the cooked bit unchanged. -/
theorem C10_commit_writes_raw_bit (dn up cols nrows B : Nat)
    (hcols : 0 < cols) (hdn : 1 ≤ dn) (hup : 1 ≤ up) (hdnB : dn ≤ B)
    (hupB : up ≤ B) (hB : B ≤ 255) (hn : nrows * cols ≤ Sparse.DNULL) :
    (∀ (raw cooked : Nat → Nat) (changed : Bool) (st : Sparse.St)
        (now i : Nat),
      Sparse.Inv (nrows * cols) B st.counters st.head →
      (st.counters i).remaining ≠ 0 →
      ¬ (get_elapsed now st.clock).1 < (st.counters i).remaining →
      (Sparse.debounce dn up cols raw cooked nrows changed st now).2.counters i
          = ⟨0, Sparse.DNULL⟩ ∧
      ¬ Sparse.Reachable
          (Sparse.debounce dn up cols raw cooked nrows changed st
            now).2.counters
          (Sparse.debounce dn up cols raw cooked nrows changed st now).2.head
          i ∧
      ((Sparse.debounce dn up cols raw cooked nrows changed st now).1
          (i / cols)).testBit (i % cols) =
        (raw (i / cols)).testBit (i % cols) ∧
      ((raw (i / cols)).testBit (i % cols) =
          (cooked (i / cols)).testBit (i % cols) →
        ((Sparse.debounce dn up cols raw cooked nrows changed st now).1
            (i / cols)).testBit (i % cols) =
          (cooked (i / cols)).testBit (i % cols))) ∧
    (∀ (raw cooked : Nat → Nat) (changed : Bool) (st : Asym.St) (now r c : Nat),
      r < nrows → c < cols →
      Asym.RowCountsOk cols st →
      st.count r c ≠ 0 →
      st.count r c ≤ Asym.elapsedA st now →
      ¬ (changed = true ∧ ((raw r) ^^^ (cooked r)) &&& 2 ^ c ≠ 0) →
      (Asym.debounce dn up cols raw cooked nrows changed st now).2.count r c
          = 0 ∧
      ((Asym.debounce dn up cols raw cooked nrows changed st now).1 r).testBit
          c = (raw r).testBit c ∧
      ((raw r).testBit c = (cooked r).testBit c →
        ((Asym.debounce dn up cols raw cooked nrows changed st now).1
          r).testBit c = (cooked r).testBit c)) := by
  constructor
  · intro raw cooked changed st now i hInv hnz hexp
    have hcell := Sparse.debounce_expiry_cell dn up cols nrows B raw cooked
      changed st now hcols hn hInv i hnz hexp
    have hInv2 := Sparse.debounce_inv dn up cols nrows B raw cooked changed st
      now hcols hdn hup hdnB hupB hB hn hInv
    refine ⟨hcell.1, ?_, hcell.2, fun hbit => by rw [hcell.2, hbit]⟩
    intro hre
    have hnz2 := (Sparse.Inv_reachable_iff (nrows * cols) B _ _ hn hInv2
      i).mp hre
    exact hnz2 (by rw [hcell.1])
  · intro raw cooked changed st now r c hr hc hok hnz hexp hnoarm
    have hskip : ¬ (st.rowCounts r = 0 ∧ changed = false) := by
      rintro ⟨hz, -⟩
      have := hok r
      rw [hz] at this
      exact Asym.countNonzero_pos (st.count r) cols c hc hnz this.symm
    constructor
    · rw [Asym.debounce_count_cell dn up cols raw cooked nrows changed st now
        r c hr hc, if_neg hskip]
      unfold Asym.nextCount
      rw [if_neg hnoarm, if_neg (by omega)]
    · have hcooked : ((Asym.debounce dn up cols raw cooked nrows changed st
          now).1 r).testBit c = (raw r).testBit c := by
        rw [Asym.debounce_cooked_cell dn up cols raw cooked nrows changed st
          now r c hr, if_pos ⟨hskip, hc, hnoarm, by omega, hnz⟩]
      exact ⟨hcooked, fun hbit => by rw [hcooked, hbit]⟩

theorem C10_commit_writes_raw_bit_witness :
    (Asym.debounce 5 10 1 (fun _ => 0) (fun _ => 0) 1 false
        ⟨fun _ _ => 3, fun _ => 1, 0⟩ 7).2.count 0 0 = 0 ∧
    ((Asym.debounce 5 10 1 (fun _ => 0) (fun _ => 0) 1 false
        ⟨fun _ _ => 3, fun _ => 1, 0⟩ 7).1 0).testBit 0 =
      (((fun _ => 0) : Nat → Nat) 0).testBit 0 ∧
    ((((fun _ => 0) : Nat → Nat) 0).testBit 0 =
        (((fun _ => 0) : Nat → Nat) 0).testBit 0 →
      ((Asym.debounce 5 10 1 (fun _ => 0) (fun _ => 0) 1 false
          ⟨fun _ _ => 3, fun _ => 1, 0⟩ 7).1 0).testBit 0 =
        (((fun _ => 0) : Nat → Nat) 0).testBit 0) := by
  exact (C10_commit_writes_raw_bit 5 10 1 1 10 (by decide) (by decide)
    (by decide) (by decide) (by decide) (by decide) (by decide)).2
    (fun _ => 0) (fun _ => 0) false ⟨fun _ _ => 3, fun _ => 1, 0⟩ 7 0 0
    (by decide) (by decide) (by intro t; rfl) (by decide) (by decide)
    (by decide)

end DebounceModel
